import Mathlib

/-!
Verification of the region data model and the two OCR-markup parsers of
`pyocr/builders.py`.

Python strings are modelled as `List Char` (`PyStr`); Python `int` as `Int`.
Fallible Python code (uncaught exceptions) is modelled with `Except PyErr`.
The streaming `html.parser.HTMLParser` tokenizer is part of the Python
standard library, not of this repository; documents are therefore modelled
at its event interface: a list of start-tag / data / end-tag events, with
entity decoding already performed by that layer.  All handler methods
(`handle_starttag`, `handle_data`, `handle_endtag`) and the builder methods
(`read_file`, `write_file`) are translated from the source.
-/

/-- Python `str`, modelled as its list of characters. -/
abbrev PyStr := List Char

/-- A bounding rectangle `((x0, y0), (x1, y1))` of Python `int` coordinates. -/
abbrev Position := (Int × Int) × (Int × Int)

/-- The whitespace characters stripped by Python's `str.strip()`. -/
def pyIsSpace (c : Char) : Bool :=
  c == ' ' || c == '\t' || c == '\n' || c == '\r' || c == '\x0b' || c == '\x0c'

/-- Python `str.lstrip()`. -/
def pyLStrip (s : PyStr) : PyStr := s.dropWhile pyIsSpace

/-- Python `str.rstrip()`. -/
def pyRStrip (s : PyStr) : PyStr := (s.reverse.dropWhile pyIsSpace).reverse

/-- Python `str.strip()`. -/
def pyStrip (s : PyStr) : PyStr := pyLStrip (pyRStrip s)

/-- Python `str.split(sep)` for a single-character separator (the source
splits on `" "`): splits at every occurrence, keeping empty parts. -/
def pySplitCh (sep : Char) : PyStr → List PyStr
  | [] => [[]]
  | c :: rest =>
    if c = sep then [] :: pySplitCh sep rest
    else
      match pySplitCh sep rest with
      | [] => [[c]]
      | p :: ps => (c :: p) :: ps

/-- Python `str.split(sep)` for a two-character separator (the source splits
on `"; "`): splits at every non-overlapping occurrence scanning left to
right, keeping empty parts. -/
def pySplit2 (s1 s2 : Char) : PyStr → List PyStr
  | [] => [[]]
  | [c] => [[c]]
  | c :: d :: rest =>
    if c = s1 ∧ d = s2 then [] :: pySplit2 s1 s2 rest
    else
      match pySplit2 s1 s2 (d :: rest) with
      | [] => [[c]]
      | p :: ps => (c :: p) :: ps

/-- Decimal value of a digit string, most significant digit first. -/
def digitsVal (l : PyStr) : Nat := l.foldl (fun a c => 10 * a + (c.toNat - 48)) 0

/-- Parse a non-empty all-digit string, as Python `int` does after sign removal. -/
def parseDigits (l : PyStr) : Option Nat :=
  if l ≠ [] ∧ l.all Char.isDigit then some (digitsVal l) else none

/-- Python `int(s)` on a decimal string: surrounding whitespace is stripped,
an optional sign is allowed, then a non-empty run of decimal digits.
`none` models the `ValueError` raised on any other input. -/
def strToInt (s : PyStr) : Option Int :=
  match pyStrip s with
  | [] => none
  | c :: rest =>
    if c = '-' then (parseDigits rest).map (fun k => -(k : Int))
    else if c = '+' then (parseDigits rest).map (fun k => (k : Int))
    else (parseDigits (c :: rest)).map (fun k => (k : Int))

/-- The decimal digit character for `d < 10`. -/
def digitChar (d : Nat) : Char := Char.ofNat (48 + d)

/-- Decimal digits of a natural number, as produced by Python's `"%d"`. -/
def natDigits (n : Nat) : PyStr :=
  if _h : n < 10 then [digitChar n]
  else natDigits (n / 10) ++ [digitChar (n % 10)]
termination_by n
decreasing_by
  omega

/-- Python `"%d" % n` for an `int` `n`. -/
def intRepr (n : Int) : PyStr :=
  if n < 0 then '-' :: natDigits (-n).toNat else natDigits n.toNat

/-- Uncaught Python exceptions relevant to the parsers. -/
inductive PyErr where
  | valueError
  | indexError
  | typeError
  | exception
deriving DecidableEq, Repr

deriving instance DecidableEq for Except

/-- `builders.Box`: one recognized word with its rectangle and confidence.
The constructor default for `confidence` is `0`; construction sites that rely
on the default pass `0` explicitly here. -/
structure Box where
  content : PyStr
  position : Position
  confidence : Int
deriving DecidableEq, Repr

/-- The comparison loop shared by `Box.__box_cmp` and `LineBox.__box_cmp`:
walk the list of `(x, y)` pairs, return `-1`/`1` at the first strict
inequality, `0` if all pairs are equal. -/
def cmpPairs : List (Int × Int) → Int
  | [] => 0
  | (x, y) :: rest => if x < y then -1 else if x > y then 1 else cmpPairs rest

/-- `Box.__box_cmp(self, other)`: `-1` against `None`, otherwise the pair
loop over `(top.y, bottom.y, top.x, bottom.x)`. -/
def Box.boxCmp (self : Box) : Option Box → Int
  | none => -1
  | some other =>
    cmpPairs [(self.position.1.2, other.position.1.2),
              (self.position.2.2, other.position.2.2),
              (self.position.1.1, other.position.1.1),
              (self.position.2.1, other.position.2.1)]

/-- `Box.__lt__`. -/
def Box.lt (self : Box) (other : Option Box) : Bool := decide (self.boxCmp other < 0)

/-- `Box.__gt__`. -/
def Box.gt (self : Box) (other : Option Box) : Bool := decide (self.boxCmp other > 0)

/-- `Box.__eq__`. -/
def Box.eq (self : Box) (other : Option Box) : Bool := decide (self.boxCmp other = 0)

/-- `Box.__le__`. -/
def Box.le (self : Box) (other : Option Box) : Bool := decide (self.boxCmp other ≤ 0)

/-- `Box.__ge__`. -/
def Box.ge (self : Box) (other : Option Box) : Bool := decide (self.boxCmp other ≥ 0)

/-- `Box.__ne__`. -/
def Box.ne (self : Box) (other : Option Box) : Bool := decide (self.boxCmp other ≠ 0)

/-- `builders.LineBox`: a line of word boxes with its own rectangle. -/
structure LineBox where
  word_boxes : List Box
  position : Position
deriving DecidableEq, Repr

/-- `LineBox.content` (the `__get_content` property): concatenate each child's
content followed by a space, then `str.strip()` the result.  In the source it
is a read-only `property` recomputed on each access; here it is a pure
function of the current `word_boxes`. -/
def LineBox.content (self : LineBox) : PyStr :=
  pyStrip (self.word_boxes.foldl (fun txt b => txt ++ b.content ++ " ".data) [])

/-- `LineBox.__box_cmp`, identical in shape to `Box.__box_cmp`. -/
def LineBox.boxCmp (self : LineBox) : Option LineBox → Int
  | none => -1
  | some other =>
    cmpPairs [(self.position.1.2, other.position.1.2),
              (self.position.2.2, other.position.2.2),
              (self.position.1.1, other.position.1.1),
              (self.position.2.1, other.position.2.1)]

/-- `LineBox.__lt__`. -/
def LineBox.lt (self : LineBox) (other : Option LineBox) : Bool :=
  decide (self.boxCmp other < 0)

/-- `LineBox.__gt__`. -/
def LineBox.gt (self : LineBox) (other : Option LineBox) : Bool :=
  decide (self.boxCmp other > 0)

/-- `LineBox.__eq__`. -/
def LineBox.eq (self : LineBox) (other : Option LineBox) : Bool :=
  decide (self.boxCmp other = 0)

/-- `LineBox.__ne__`. -/
def LineBox.ne (self : LineBox) (other : Option LineBox) : Bool :=
  decide (self.boxCmp other ≠ 0)

/-- Python `v & 0xFF`, which for any `int` equals `v mod 256`
(two's-complement masking by a block of low one-bits). -/
def pyMask255 (a : Int) : Int := a % 256

/-- The `position_hash` accumulator of `Box.__hash__`/`LineBox.__hash__`:
each coordinate masked to a byte and shifted into its own byte of a 32-bit
value (`<< 0`, `<< 8`, `<< 16`, `<< 24` become the powers of two). -/
def packHash (p : Position) : Int :=
  pyMask255 p.1.1 + pyMask255 p.1.2 * 2 ^ 8 + pyMask255 p.2.1 * 2 ^ 16 +
    pyMask255 p.2.2 * 2 ^ 24

/-- Python `^` on `int`: two's-complement bitwise xor.  `Int.negSucc n` is the
bitwise complement of `n`, so xor flips to the complement exactly when the
signs differ, with `Nat.xor` on the underlying magnitudes. -/
def pyXor : Int → Int → Int
  | .ofNat m, .ofNat n => .ofNat (m ^^^ n)
  | .ofNat m, .negSucc n => .negSucc (m ^^^ n)
  | .negSucc m, .ofNat n => .negSucc (m ^^^ n)
  | .negSucc m, .negSucc n => .ofNat (m ^^^ n)

/-- `Box.__hash__`, parametrized by the (opaque to this file) Python string
hash: `position_hash ^ hash(content) ^ hash(content)`. -/
def Box.hashWith (strHash : PyStr → Int) (b : Box) : Int :=
  pyXor (pyXor (packHash b.position) (strHash b.content)) (strHash b.content)

/-- `LineBox.__hash__`: same shape, over the derived `content`. -/
def LineBox.hashWith (strHash : PyStr → Int) (lb : LineBox) : Int :=
  pyXor (pyXor (packHash lb.position) (strHash lb.content)) (strHash lb.content)

/-- The spec's 4-key comparison tuple `(top.y, bottom.y, top.x, bottom.x)`. -/
def boxKey (b : Box) : Int × Int × Int × Int :=
  (b.position.1.2, b.position.2.2, b.position.1.1, b.position.2.1)

/-- The spec's 4-key tuple for a `LineBox`. -/
def lineKey (lb : LineBox) : Int × Int × Int × Int :=
  (lb.position.1.2, lb.position.2.2, lb.position.1.1, lb.position.2.1)

/-- Strict lexicographic order on 4-tuples, written out from the spec's
"4-key lexicographic tuple" description. -/
def specLexLt (k l : Int × Int × Int × Int) : Prop :=
  k.1 < l.1 ∨ (k.1 = l.1 ∧ (k.2.1 < l.2.1 ∨ (k.2.1 = l.2.1 ∧
    (k.2.2.1 < l.2.2.1 ∨ (k.2.2.1 = l.2.2.1 ∧ k.2.2.2 < l.2.2.2)))))

theorem cmpPairs_four (a1 b1 a2 b2 a3 b3 a4 b4 : Int) :
    (cmpPairs [(a1, b1), (a2, b2), (a3, b3), (a4, b4)] < 0 ↔
      specLexLt (a1, a2, a3, a4) (b1, b2, b3, b4))
    ∧ (cmpPairs [(a1, b1), (a2, b2), (a3, b3), (a4, b4)] = 0 ↔
      (a1, a2, a3, a4) = ((b1, b2, b3, b4) : Int × Int × Int × Int))
    ∧ (cmpPairs [(a1, b1), (a2, b2), (a3, b3), (a4, b4)] > 0 ↔
      specLexLt (b1, b2, b3, b4) (a1, a2, a3, a4)) := by
  simp only [cmpPairs, specLexLt, Prod.mk.injEq]
  split_ifs <;> (try simp only [false_iff, iff_false, true_iff, iff_true]) <;> omega

theorem cmpPairs_trichotomy (a1 b1 a2 b2 a3 b3 a4 b4 : Int) :
    cmpPairs [(a1, b1), (a2, b2), (a3, b3), (a4, b4)] = -1 ∨
    cmpPairs [(a1, b1), (a2, b2), (a3, b3), (a4, b4)] = 0 ∨
    cmpPairs [(a1, b1), (a2, b2), (a3, b3), (a4, b4)] = 1 := by
  simp only [cmpPairs]
  split_ifs <;> omega

theorem pyXor_cancel : ∀ a b : Int, pyXor (pyXor a b) b = a
  | .ofNat m, .ofNat n => by
    simp only [pyXor]
    exact congrArg Int.ofNat (Nat.xor_cancel_right n m)
  | .ofNat m, .negSucc n => by
    simp only [pyXor]
    exact congrArg Int.ofNat (Nat.xor_cancel_right n m)
  | .negSucc m, .ofNat n => by
    simp only [pyXor]
    exact congrArg Int.negSucc (Nat.xor_cancel_right n m)
  | .negSucc m, .negSucc n => by
    simp only [pyXor]
    exact congrArg Int.negSucc (Nat.xor_cancel_right n m)

theorem cmpPairs_refl4 (x1 x2 x3 x4 : Int) :
    cmpPairs [(x1, x1), (x2, x2), (x3, x3), (x4, x4)] = 0 := by
  simp [cmpPairs]

/-- C1 (counterexample): the spec claims `region < None` is false and
`region > None` is true; at a concrete `Box` and `LineBox` the code gives the
opposite, because `__box_cmp` returns `-1` (self is less) when `other is None`. -/
theorem c1_counterexample :
    Box.lt (Box.mk ['w'] ((0, 0), (1, 1)) 0) none = true ∧
    Box.gt (Box.mk ['w'] ((0, 0), (1, 1)) 0) none = false ∧
    LineBox.lt (LineBox.mk [] ((0, 0), (1, 1))) none = true ∧
    LineBox.gt (LineBox.mk [] ((0, 0), (1, 1))) none = false := by
  decide

/-- C1 (amended): for every `Box` or `LineBox` region, comparing against
`None` gives `region < None` true, `region > None` false and `region != None`
true — `__box_cmp` returns `-1` against `None`, so the region sorts before
absence, not after it. -/
theorem c1_amended :
    ∀ (b : Box) (lb : LineBox),
      Box.lt b none = true ∧ Box.gt b none = false ∧ Box.ne b none = true ∧
      LineBox.lt lb none = true ∧ LineBox.gt lb none = false ∧
      LineBox.ne lb none = true := by
  intro b lb
  simp [Box.lt, Box.gt, Box.ne, Box.boxCmp, LineBox.lt, LineBox.gt, LineBox.ne,
    LineBox.boxCmp]

/-- C2: for non-`None` pairs, `<`/`==`/`>` agree with the 4-key lexicographic
tuple `(top.y, bottom.y, top.x, bottom.x)` of the rectangles, and exactly one
of `a < b`, `a == b`, `a > b` holds; identically for `Box` and `LineBox`. -/
theorem c2_ordering_matches_lex_tuple :
    ∀ (a b : Box) (la lb : LineBox),
      (Box.lt a (some b) = true ↔ specLexLt (boxKey a) (boxKey b)) ∧
      (Box.eq a (some b) = true ↔ boxKey a = boxKey b) ∧
      (Box.gt a (some b) = true ↔ specLexLt (boxKey b) (boxKey a)) ∧
      ((Box.lt a (some b) = true ∧ Box.eq a (some b) = false ∧
          Box.gt a (some b) = false) ∨
       (Box.lt a (some b) = false ∧ Box.eq a (some b) = true ∧
          Box.gt a (some b) = false) ∨
       (Box.lt a (some b) = false ∧ Box.eq a (some b) = false ∧
          Box.gt a (some b) = true)) ∧
      (LineBox.lt la (some lb) = true ↔ specLexLt (lineKey la) (lineKey lb)) ∧
      (LineBox.eq la (some lb) = true ↔ lineKey la = lineKey lb) ∧
      (LineBox.gt la (some lb) = true ↔ specLexLt (lineKey lb) (lineKey la)) ∧
      ((LineBox.lt la (some lb) = true ∧ LineBox.eq la (some lb) = false ∧
          LineBox.gt la (some lb) = false) ∨
       (LineBox.lt la (some lb) = false ∧ LineBox.eq la (some lb) = true ∧
          LineBox.gt la (some lb) = false) ∨
       (LineBox.lt la (some lb) = false ∧ LineBox.eq la (some lb) = false ∧
          LineBox.gt la (some lb) = true)) := by
  intro a b la lb
  have hb := cmpPairs_four a.position.1.2 b.position.1.2 a.position.2.2 b.position.2.2
    a.position.1.1 b.position.1.1 a.position.2.1 b.position.2.1
  have hl := cmpPairs_four la.position.1.2 lb.position.1.2 la.position.2.2 lb.position.2.2
    la.position.1.1 lb.position.1.1 la.position.2.1 lb.position.2.1
  have trib := cmpPairs_trichotomy a.position.1.2 b.position.1.2 a.position.2.2
    b.position.2.2 a.position.1.1 b.position.1.1 a.position.2.1 b.position.2.1
  have tril := cmpPairs_trichotomy la.position.1.2 lb.position.1.2 la.position.2.2
    lb.position.2.2 la.position.1.1 lb.position.1.1 la.position.2.1 lb.position.2.1
  obtain ⟨hblt, hbeq, hbgt⟩ := hb
  obtain ⟨hllt, hleq, hlgt⟩ := hl
  simp only [Box.lt, Box.eq, Box.gt, Box.boxCmp, boxKey, LineBox.lt, LineBox.eq,
    LineBox.gt, LineBox.boxCmp, lineKey, decide_eq_true_eq, decide_eq_false_iff_not]
  exact ⟨hblt, hbeq, hbgt, by omega, hllt, hleq, hlgt, by omega⟩

/-- C3: two regions with identical rectangles (and possibly different text
content) are `==`-equal and hash identically; the hash equals the packed
byte value of the rectangle, for an arbitrary Python string hash, because the
content hash is xor-ed in twice and cancels. -/
theorem c3_geometric_equality_and_hash :
    ∀ (strHash : PyStr → Int) (a b : Box) (la lb : LineBox),
      a.position = b.position → a.content ≠ b.content →
      la.position = lb.position → la.content ≠ lb.content →
      (Box.eq a (some b) = true ∧
        Box.hashWith strHash a = Box.hashWith strHash b ∧
        Box.hashWith strHash a = packHash a.position) ∧
      (LineBox.eq la (some lb) = true ∧
        LineBox.hashWith strHash la = LineBox.hashWith strHash lb ∧
        LineBox.hashWith strHash la = packHash la.position) := by
  intro strHash a b la lb hpos hcont hlpos hlcont
  refine ⟨⟨?_, ?_, ?_⟩, ⟨?_, ?_, ?_⟩⟩
  · simp [Box.eq, Box.boxCmp, hpos, cmpPairs_refl4]
  · rw [Box.hashWith, Box.hashWith, pyXor_cancel, pyXor_cancel, hpos]
  · rw [Box.hashWith, pyXor_cancel]
  · simp [LineBox.eq, LineBox.boxCmp, hlpos, cmpPairs_refl4]
  · rw [LineBox.hashWith, LineBox.hashWith, pyXor_cancel, pyXor_cancel, hlpos]
  · rw [LineBox.hashWith, pyXor_cancel]

/-- Witness for C3 at concrete regions with equal rectangles and different
content, with `hash(str)` instantiated by the string length. -/
theorem c3_witness :
    (Box.mk ['a'] ((1, 2), (3, 4)) 0).position
        = (Box.mk ['b'] ((1, 2), (3, 4)) 7).position ∧
    (Box.mk ['a'] ((1, 2), (3, 4)) 0).content
        ≠ (Box.mk ['b'] ((1, 2), (3, 4)) 7).content ∧
    (LineBox.mk [Box.mk ['a'] ((1, 2), (3, 4)) 0] ((0, 0), (9, 9))).position
        = (LineBox.mk [Box.mk ['c', 'd'] ((1, 2), (3, 4)) 0] ((0, 0), (9, 9))).position ∧
    (LineBox.mk [Box.mk ['a'] ((1, 2), (3, 4)) 0] ((0, 0), (9, 9))).content
        ≠ (LineBox.mk [Box.mk ['c', 'd'] ((1, 2), (3, 4)) 0] ((0, 0), (9, 9))).content ∧
    ((Box.eq (Box.mk ['a'] ((1, 2), (3, 4)) 0)
        (some (Box.mk ['b'] ((1, 2), (3, 4)) 7)) = true ∧
      Box.hashWith (fun s => (s.length : Int)) (Box.mk ['a'] ((1, 2), (3, 4)) 0)
        = Box.hashWith (fun s => (s.length : Int)) (Box.mk ['b'] ((1, 2), (3, 4)) 7) ∧
      Box.hashWith (fun s => (s.length : Int)) (Box.mk ['a'] ((1, 2), (3, 4)) 0)
        = packHash ((1, 2), (3, 4))) ∧
     (LineBox.eq (LineBox.mk [Box.mk ['a'] ((1, 2), (3, 4)) 0] ((0, 0), (9, 9)))
        (some (LineBox.mk [Box.mk ['c', 'd'] ((1, 2), (3, 4)) 0] ((0, 0), (9, 9)))) = true ∧
      LineBox.hashWith (fun s => (s.length : Int))
          (LineBox.mk [Box.mk ['a'] ((1, 2), (3, 4)) 0] ((0, 0), (9, 9)))
        = LineBox.hashWith (fun s => (s.length : Int))
          (LineBox.mk [Box.mk ['c', 'd'] ((1, 2), (3, 4)) 0] ((0, 0), (9, 9))) ∧
      LineBox.hashWith (fun s => (s.length : Int))
          (LineBox.mk [Box.mk ['a'] ((1, 2), (3, 4)) 0] ((0, 0), (9, 9)))
        = packHash ((0, 0), (9, 9)))) :=
  ⟨rfl, by decide, rfl, by decide,
    c3_geometric_equality_and_hash (fun s => (s.length : Int)) _ _ _ _ rfl (by decide)
      rfl (by decide)⟩

/-- One event of the standard-library streaming HTML tokenizer: a start tag
with its attribute list, a text-data chunk, or an end tag.  A self-closing
tag is a start event followed by an end event, as in
`HTMLParser.handle_startendtag`'s default behaviour. -/
inductive HtmlEvent where
  | startTag (tag : PyStr) (attrs : List (PyStr × PyStr))
  | dataEv (d : PyStr)
  | endTag (tag : PyStr)
deriving DecidableEq, Repr

/-- Mutable state of `_WordHTMLParser`.  `tag_types` is the Python list used
as a stack: pushed at the end, popped from the end. -/
structure WState where
  tag_types : List PyStr
  current_box_position : Option Position
  current_box_text : Option PyStr
  current_box_confidence : Option Int
  boxes : List Box
  current_line_position : Option Position
  current_line_content : List Box
  lines : List LineBox
deriving DecidableEq, Repr

/-- `_WordHTMLParser.__init__`. -/
def initW : WState :=
  { tag_types := [], current_box_position := none, current_box_text := none,
    current_box_confidence := none, boxes := [], current_line_position := none,
    current_line_content := [], lines := [] }

/-- The loop body of `_WordHTMLParser.__parse_confidence` over the `"; "`
pieces: on the first piece starting with `x_wconf`, return
`int(piece.split(" ")[1])`; exhausting the pieces returns the default `0`.
`none` models an uncaught `IndexError`/`ValueError`. -/
def parseConfidencePieces : List PyStr → Option Int
  | [] => some 0
  | piece :: rest =>
    let p := pyStrip piece
    if List.isPrefixOf "x_wconf".data p then
      match (pySplitCh ' ' p).get? 1 with
      | none => none
      | some c => strToInt c
    else parseConfidencePieces rest

/-- `_WordHTMLParser.__parse_confidence`. -/
def parseConfidence (title : PyStr) : Option Int :=
  parseConfidencePieces (pySplit2 ';' ' ' title)

/-- The loop body of `_WordHTMLParser.__parse_position`: on the first piece
starting with `bbox`, read four integers from `piece.split(" ")[1..4]`.
`none` models the exception raised when no piece matches, or the
`IndexError`/`ValueError` from a malformed matching piece. -/
def parsePositionPieces : List PyStr → Option Position
  | [] => none
  | piece :: rest =>
    let p := pyStrip piece
    if List.isPrefixOf "bbox".data p then
      let parts := pySplitCh ' ' p
      match parts.get? 1, parts.get? 2, parts.get? 3, parts.get? 4 with
      | some s1, some s2, some s3, some s4 =>
        match strToInt s1, strToInt s2, strToInt s3, strToInt s4 with
        | some v1, some v2, some v3, some v4 => some ((v1, v2), (v3, v4))
        | _, _, _, _ => none
      | _, _, _, _ => none
    else parsePositionPieces rest

/-- `_WordHTMLParser.__parse_position`. -/
def parsePosition (title : PyStr) : Option Position :=
  parsePositionPieces (pySplit2 ';' ' ' title)

/-- `_WordHTMLParser.handle_starttag`.  The attribute scan keeps the last
`class`/`title` values, as the Python loop does.  In the word branch the
`try` block catches any parse failure and pushes `"ignore"`; in the line
branch a parse failure propagates as an uncaught exception. -/
def wordHandleStart (tag : PyStr) (attrs : List (PyStr × PyStr)) (st : WState) :
    Except PyErr WState :=
  if tag ≠ "span".data then .ok st else
  let tagType := attrs.foldl
    (fun acc a => if a.1 = "class".data then some a.2 else acc) none
  let position := attrs.foldl
    (fun acc a => if a.1 = "title".data then some a.2 else acc) none
  match position, tagType with
  | some titleStr, some tt =>
    if tt = "ocr_word".data ∨ tt = "ocrx_word".data then
      match parseConfidence titleStr, parsePosition titleStr with
      | some conf, some pos =>
        .ok { st with current_box_confidence := some conf,
                      current_box_position := some pos,
                      current_box_text := some [],
                      tag_types := st.tag_types ++ [tt] }
      | _, _ => .ok { st with tag_types := st.tag_types ++ ["ignore".data] }
    else if tt = "ocr_line".data then
      match parsePosition titleStr with
      | none => .error .exception
      | some pos =>
        .ok { st with current_line_position := some pos,
                      current_line_content := [],
                      tag_types := st.tag_types ++ [tt] }
    else .ok { st with tag_types := st.tag_types ++ [tt] }
  | _, _ => .ok st

/-- `_WordHTMLParser.handle_data`: append to the accumulating word text if a
word region is open, otherwise ignore. -/
def wordHandleData (d : PyStr) (st : WState) : Except PyErr WState :=
  match st.current_box_text with
  | none => .ok st
  | some t => .ok { st with current_box_text := some (t ++ d) }

/-- `_WordHTMLParser.handle_endtag`: pop the tag classification; a word close
materializes a `Box` into both the flat list and the current line content, a
line close materializes a `LineBox`.  Popping the empty Python list raises
`IndexError`.  The `getD` defaults are unreachable: whenever
`current_box_text` is `some _` (resp. a pushed `"ocr_line"` is popped), the
corresponding position/confidence were set by the same start event. -/
def wordHandleEnd (tag : PyStr) (st : WState) : Except PyErr WState :=
  if tag ≠ "span".data then .ok st else
  match st.tag_types.getLast? with
  | none => .error .indexError
  | some tt =>
    let st' := { st with tag_types := st.tag_types.dropLast }
    if tt = "ocr_word".data ∨ tt = "ocrx_word".data then
      match st'.current_box_text with
      | none => .ok st'
      | some txt =>
        let box : Box :=
          { content := txt,
            position := st'.current_box_position.getD ((0, 0), (0, 0)),
            confidence := st'.current_box_confidence.getD 0 }
        .ok { st' with boxes := st'.boxes ++ [box],
                       current_line_content := st'.current_line_content ++ [box],
                       current_box_text := none }
    else if tt = "ocr_line".data then
      .ok { st' with
            lines := st'.lines ++
              [{ word_boxes := st'.current_line_content,
                 position := st'.current_line_position.getD ((0, 0), (0, 0)) }],
            current_line_content := [] }
    else .ok st'

/-- `HTMLParser.feed` for `_WordHTMLParser`: dispatch each event to its
handler; an uncaught exception aborts the feed. -/
def feedW : List HtmlEvent → WState → Except PyErr WState
  | [], st => .ok st
  | e :: rest, st => do
    let st' ←
      match e with
      | .startTag t a => wordHandleStart t a st
      | .dataEv d => wordHandleData d st
      | .endTag t => wordHandleEnd t st
    feedW rest st'

/-- Mutable state of `_LineHTMLParser`. -/
structure LState where
  boxes : List Box
  line_text : Option PyStr
  char_positions : Option (List PyStr)
deriving DecidableEq, Repr

/-- `_LineHTMLParser.__init__`. -/
def initL : LState := { boxes := [], line_text := none, char_positions := none }

/-- `_LineHTMLParser.handle_starttag`.  A content (`ocr_line`) span resets
the text buffer and position list; a positions (`ocr_cinfo`) span takes its
`title` split on single spaces, drops the first (`x_bboxes`) token, and
removes every literal `"-1"` token.  The source's
`if self.__char_positions[-1] == "": self.__char_positions[:-1]` evaluates
the slice without assigning it (a no-op), but indexing `[-1]` on an empty
list raises `IndexError`; with no `title` attribute and no previous list,
slicing `None` raises `TypeError`. -/
def lineHandleStart (tag : PyStr) (attrs : List (PyStr × PyStr)) (st : LState) :
    Except PyErr LState :=
  if tag ≠ "span".data then .ok st else
  let tagType : Int := attrs.foldl
    (fun acc a =>
      if a.1 = "class".data then
        if a.2 = "ocr_line".data then 0
        else if a.2 = "ocr_cinfo".data then 1
        else acc
      else acc) (-1)
  if tagType = 0 then
    .ok { st with line_text := some [], char_positions := some [] }
  else if tagType = 1 then
    let cp := attrs.foldl
      (fun acc a => if a.1 = "title".data then some (pySplitCh ' ' a.2) else acc)
      st.char_positions
    match cp with
    | none => .error .typeError
    | some l =>
      let l1 := l.tail
      match l1.getLast? with
      | none => .error .indexError
      | some _lastTok =>
        .ok { st with char_positions := some (l1.filter (fun t => t ≠ "-1".data)) }
  else .ok st

/-- `_LineHTMLParser.handle_data`. -/
def lineHandleData (d : PyStr) (st : LState) : Except PyErr LState :=
  match st.line_text with
  | none => .ok st
  | some t => .ok { st with line_text := some (t ++ d) }

/-- Python `min(list)`: `ValueError` on an empty list. -/
def pyMin : List Int → Except PyErr Int
  | [] => .error .valueError
  | h :: t => .ok (t.foldl min h)

/-- Python `max(list)`: `ValueError` on an empty list. -/
def pyMax : List Int → Except PyErr Int
  | [] => .error .valueError
  | h :: t => .ok (t.foldl max h)

/-- The list comprehension `[int(positions[x]) for x in idxs]`, evaluated
left to right: `IndexError` past the end, `ValueError` on a non-integer
token. -/
def intsAt (positions : List PyStr) : List Nat → Except PyErr (List Int)
  | [] => .ok []
  | i :: idxs =>
    match positions.get? i with
    | none => .error .indexError
    | some s =>
      match strToInt s with
      | none => .error .valueError
      | some v => do
        let vs ← intsAt positions idxs
        .ok (v :: vs)

/-- Python `range(off, 4 * count, 4)` for `off < 4`. -/
def pyRange4 (off count : Nat) : List Nat :=
  (List.range count).map (fun i => 4 * i + off)

/-- One iteration of the word loop in `_LineHTMLParser.handle_endtag` for a
non-empty word: slice off the word's positions, aggregate the four strided
min/max coordinates, and build `Box(word, box_pos)` with the constructor's
default confidence `0`. -/
def processWord (word : PyStr) (cps : List PyStr) : Except PyErr (Box × List PyStr) := do
  let positions := cps.take (4 * word.length)
  let rest := cps.drop (4 * word.length)
  let lefts ← intsAt positions (pyRange4 0 word.length)
  let left ← pyMin lefts
  let tops ← intsAt positions (pyRange4 1 word.length)
  let top ← pyMin tops
  let rights ← intsAt positions (pyRange4 2 word.length)
  let right ← pyMax rights
  let bottoms ← intsAt positions (pyRange4 3 word.length)
  let bottom ← pyMax bottoms
  .ok ({ content := word, position := ((left, top), (right, bottom)),
         confidence := 0 }, rest)

/-- The word loop of `_LineHTMLParser.handle_endtag`: empty words (from
consecutive spaces) are skipped, each other word consumes its positions from
the front of the list. -/
def processWords : List PyStr → List PyStr → Except PyErr (List Box × List PyStr)
  | [], cps => .ok ([], cps)
  | w :: ws, cps =>
    if w = [] then processWords ws cps
    else do
      let (b, rest) ← processWord w cps
      let (bs, rest') ← processWords ws rest
      .ok (b :: bs, rest')

/-- `_LineHTMLParser.handle_endtag`.  The `tag` argument is ignored by the
source.  The guard returns when no line text is open or the position list is
the empty list (`None == []` is false in Python, so a `None` list passes the
guard and the slice of `None` raises `TypeError`; that state is unreachable
from `initL`).  On success the line text is reset, the leftover positions
are kept. -/
def lineHandleEnd (_tag : PyStr) (st : LState) : Except PyErr LState :=
  match st.line_text with
  | none => .ok st
  | some txt =>
    if st.char_positions = some [] then .ok st
    else
      match st.char_positions with
      | none => .error .typeError
      | some cps => do
        let (bs, rest) ← processWords (pySplitCh ' ' txt) cps
        .ok { st with boxes := st.boxes ++ bs, line_text := none,
                      char_positions := some rest }

/-- `HTMLParser.feed` for `_LineHTMLParser`. -/
def feedL : List HtmlEvent → LState → Except PyErr LState
  | [], st => .ok st
  | e :: rest, st => do
    let st' ←
      match e with
      | .startTag t a => lineHandleStart t a st
      | .dataEv d => lineHandleData d st
      | .endTag t => lineHandleEnd t st
    feedL rest st'

/-- The trailing-empty-box trim in both `read_file` methods: with a
non-empty box list, `pop(-1)` the last box if its content is empty. -/
def trimLastEmpty (boxes : List Box) : List Box :=
  match boxes.getLast? with
  | some b => if b.content = [] then boxes.dropLast else boxes
  | none => boxes

/-- `WordBoxBuilder.read_file`: feed the word parser, and on an empty result
the line parser, returning the first non-empty box list after the trailing
trim; empty from both parsers yields `[]`. -/
def readFileWordBox (doc : List HtmlEvent) : Except PyErr (List Box) := do
  let stW ← feedW doc initW
  if stW.boxes ≠ [] then .ok (trimLastEmpty stW.boxes)
  else do
    let stL ← feedL doc initL
    if stL.boxes ≠ [] then .ok (trimLastEmpty stL.boxes)
    else .ok []

/-- `LineBoxBuilder.read_file`: same parser priority and the same
`parser.boxes` pop, but the returned collection comes from each parser's
conversion — the word parser's `lines` (which the pop does not touch), or
one single-word `LineBox` per remaining box for the line parser. -/
def readFileLineBox (doc : List HtmlEvent) : Except PyErr (List LineBox) := do
  let stW ← feedW doc initW
  if stW.boxes ≠ [] then .ok stW.lines
  else do
    let stL ← feedL doc initL
    if stL.boxes ≠ [] then
      .ok ((trimLastEmpty stL.boxes).map
        (fun b => { word_boxes := [b], position := b.position }))
    else .ok []

/-- The `title` attribute written by `Box.get_xml_tag`:
`"bbox %d %d %d %d; x_wconf %d"` over the four coordinates and the
confidence. -/
def titleOfBox (b : Box) : PyStr :=
  "bbox ".data ++ intRepr b.position.1.1 ++ " ".data ++ intRepr b.position.1.2 ++
    " ".data ++ intRepr b.position.2.1 ++ " ".data ++ intRepr b.position.2.2 ++
    "; x_wconf ".data ++ intRepr b.confidence

/-- The event stream of the `<span class="ocrx_word" title="...">content</span>`
markup produced by `Box.get_xml_tag(...).toxml()`: an empty text node
serializes to nothing, so no data event is emitted for empty content. -/
def boxXmlEvents (b : Box) : List HtmlEvent :=
  [HtmlEvent.startTag "span".data
      [("class".data, "ocrx_word".data), ("title".data, titleOfBox b)]]
  ++ (if b.content = [] then [] else [HtmlEvent.dataEv b.content])
  ++ [HtmlEvent.endTag "span".data]

/-- The event stream of the fixed `_XHTML_HEADER` boilerplate (doctype
declarations produce no handler events; the self-closing `meta` yields a
start and an end event). -/
def xhtmlHeaderEvents : List HtmlEvent :=
  [HtmlEvent.dataEv "\n".data,
   HtmlEvent.startTag "html".data [("xmlns".data, "http://www.w3.org/1999/xhtml".data)],
   HtmlEvent.dataEv "\n".data,
   HtmlEvent.startTag "head".data [],
   HtmlEvent.dataEv "\n\t".data,
   HtmlEvent.startTag "meta".data
     [("http-equiv".data, "content-type".data),
      ("content".data, "text/html; charset=utf-8".data)],
   HtmlEvent.endTag "meta".data,
   HtmlEvent.dataEv "\n\t".data,
   HtmlEvent.startTag "title".data [],
   HtmlEvent.dataEv "OCR output".data,
   HtmlEvent.endTag "title".data,
   HtmlEvent.dataEv "\n".data,
   HtmlEvent.endTag "head".data,
   HtmlEvent.dataEv "\n".data]

/-- The `<p>`-wrapped word span written for one box, followed by the newline
text node. -/
def boxParagraphEvents (b : Box) : List HtmlEvent :=
  [HtmlEvent.startTag "p".data []] ++ boxXmlEvents b ++
    [HtmlEvent.endTag "p".data, HtmlEvent.dataEv "\n".data]

/-- The closing `</body></html>` markup of the written document. -/
def closingEvents : List HtmlEvent :=
  [HtmlEvent.endTag "body".data, HtmlEvent.dataEv "\n".data,
   HtmlEvent.endTag "html".data, HtmlEvent.dataEv "\n".data]

/-- The event stream of the document written by `WordBoxBuilder.write_file`:
header, `<body>`, one `<p>`-wrapped word span per box followed by a newline,
then `</body></html>`. -/
def writeFileEvents (boxes : List Box) : List HtmlEvent :=
  (xhtmlHeaderEvents ++ [HtmlEvent.startTag "body".data [], HtmlEvent.dataEv "\n".data])
    ++ ((boxes.map boxParagraphEvents).flatten ++ closingEvents)

/-- The spec's "space-joined concatenation" of a list of strings. -/
def spaceJoin : List PyStr → PyStr
  | [] => []
  | [x] => x
  | x :: y :: xs => x ++ ' ' :: spaceJoin (y :: xs)

/-- Each string followed by one space, as the `__get_content` loop
accumulates it. -/
def joinTrail : List PyStr → PyStr
  | [] => []
  | c :: cs => c ++ ' ' :: joinTrail cs

theorem foldl_content_eq_joinTrail (l : List Box) (acc : PyStr) :
    List.foldl (fun txt b => txt ++ b.content ++ " ".data) acc l
      = acc ++ joinTrail (l.map Box.content) := by
  induction l generalizing acc with
  | nil => simp [joinTrail]
  | cons b l ih =>
    rw [List.foldl_cons, ih]
    simp [joinTrail, List.append_assoc]

theorem joinTrail_eq_spaceJoin_concat (c : PyStr) (cs : List PyStr) :
    joinTrail (c :: cs) = spaceJoin (c :: cs) ++ [' '] := by
  induction cs generalizing c with
  | nil => simp [joinTrail, spaceJoin]
  | cons d ds ih =>
    rw [joinTrail, ih d, spaceJoin]
    simp [List.append_assoc]

theorem pyRStrip_append_space (x : PyStr) : pyRStrip (x ++ [' ']) = pyRStrip x := by
  simp [pyRStrip, List.reverse_append, List.dropWhile_cons, pyIsSpace]

theorem pyStrip_append_space (x : PyStr) : pyStrip (x ++ [' ']) = pyStrip x := by
  simp [pyStrip, pyRStrip_append_space]

/-- C9: for every `LineBox`, the `content` property is the space-joined,
trimmed concatenation of the children's `content` strings.  In this
embedding `LineBox.content` is a pure function of the current `word_boxes`
sequence — the property has no setter and caches nothing. -/
theorem c9_linebox_content_derived :
    ∀ lb : LineBox,
      lb.content = pyStrip (spaceJoin (lb.word_boxes.map Box.content)) := by
  intro lb
  rw [LineBox.content, foldl_content_eq_joinTrail, List.nil_append]
  cases h : lb.word_boxes.map Box.content with
  | nil => rfl
  | cons c cs => rw [joinTrail_eq_spaceJoin_concat, pyStrip_append_space]

/-- C6: a dialect-A word tag (class `ocr_word` or `ocrx_word`) whose title
has no recognizable `bbox` token is discarded silently: the handler pushes
`"ignore"` on the tag stack, leaves the box list (and the rest of the state)
unchanged, raises nothing, and the feed continues with the remaining
events. -/
theorem c6_malformed_word_tag_ignored :
    ∀ (st : WState) (cls t : PyStr) (rest : List HtmlEvent),
      (cls = "ocr_word".data ∨ cls = "ocrx_word".data) →
      parsePosition t = none →
      wordHandleStart "span".data [("class".data, cls), ("title".data, t)] st
          = .ok { st with tag_types := st.tag_types ++ ["ignore".data] }
      ∧ feedW (HtmlEvent.startTag "span".data
            [("class".data, cls), ("title".data, t)] :: rest) st
          = feedW rest { st with tag_types := st.tag_types ++ ["ignore".data] }
      ∧ ({ st with tag_types := st.tag_types ++ ["ignore".data] } : WState).boxes
          = st.boxes := by
  intro st cls t rest hcls hpos
  have hstart : wordHandleStart "span".data [("class".data, cls), ("title".data, t)] st
      = .ok { st with tag_types := st.tag_types ++ ["ignore".data] } := by
    rcases hcls with h | h <;> subst h <;>
      simp only [wordHandleStart, List.foldl, hpos] <;>
      cases hconf : parseConfidence t <;>
      simp [hconf, hpos]
  refine ⟨hstart, ?_, rfl⟩
  rw [feedW, hstart]
  rfl

/-- Witness for C6 at a concrete state and title without a `bbox` token. -/
theorem c6_witness :
    parsePosition "junk".data = none ∧
    (wordHandleStart "span".data
        [("class".data, "ocrx_word".data), ("title".data, "junk".data)] initW
        = .ok { initW with tag_types := initW.tag_types ++ ["ignore".data] }
     ∧ feedW [HtmlEvent.startTag "span".data
          [("class".data, "ocrx_word".data), ("title".data, "junk".data)]] initW
        = feedW [] { initW with tag_types := initW.tag_types ++ ["ignore".data] }
     ∧ ({ initW with tag_types := initW.tag_types ++ ["ignore".data] } : WState).boxes
        = initW.boxes) :=
  ⟨by decide,
   c6_malformed_word_tag_ignored initW "ocrx_word".data "junk".data []
     (Or.inr rfl) (by decide)⟩

theorem pySplitCh_ne_nil (sep : Char) (s : PyStr) : pySplitCh sep s ≠ [] := by
  induction s with
  | nil => simp [pySplitCh]
  | cons a s ih =>
    simp only [pySplitCh]
    split_ifs
    · simp
    · rcases h : pySplitCh sep s with _ | ⟨p, ps⟩
      · simp
      · simp

theorem pySplitCh_append_sep (sep : Char) (s : PyStr) :
    pySplitCh sep (s ++ [sep]) = pySplitCh sep s ++ [[]] := by
  induction s with
  | nil => simp [pySplitCh]
  | cons a s ih =>
    simp only [List.cons_append, pySplitCh, List.append_eq]
    split_ifs
    · simp [ih]
    · rw [ih]
      rcases h : pySplitCh sep s with _ | ⟨p, ps⟩
      · exact absurd h (pySplitCh_ne_nil sep s)
      · simp [h]

/-- C10: on a dialect-B positions-region (`ocr_cinfo`) open event, the
coordinate list becomes exactly the `title` split on single spaces, with the
first (preamble) token dropped and every literal `"-1"` token removed — and
nothing more.  The statement meant to strip a trailing empty token evaluates
a slice without assigning it, so for every title ending in a space an
empty-string token remains at the end of the list, and `int("")` fails. -/
theorem c10_positions_list_keeps_trailing_empty :
    ∀ (st : LState) (t : PyStr),
      (pySplitCh ' ' t).tail ≠ [] →
      (lineHandleStart "span".data
          [("class".data, "ocr_cinfo".data), ("title".data, t)] st
        = .ok { st with
            char_positions :=
              some (((pySplitCh ' ' t).tail).filter (fun x => x ≠ "-1".data)) })
      ∧ (∀ t' : PyStr, t = t' ++ [' '] →
          (((pySplitCh ' ' t).tail).filter (fun x => x ≠ "-1".data)).getLast?
            = some [])
      ∧ strToInt [] = none := by
  intro st t htail
  refine ⟨?_, ?_, rfl⟩
  · simp only [lineHandleStart, List.foldl]
    rcases h : (pySplitCh ' ' t).tail.getLast? with _ | lastTok
    · exact absurd (List.getLast?_eq_none_iff.mp h) htail
    · simp [h]
  · intro t' ht
    subst ht
    rw [pySplitCh_append_sep]
    rcases h : pySplitCh ' ' t' with _ | ⟨p, ps⟩
    · exact absurd h (pySplitCh_ne_nil ' ' t')
    · simp [List.filter_append, List.getLast?_concat]

/-- Witness for C10 at a concrete state and a title ending in a space. -/
theorem c10_witness :
    ((pySplitCh ' ' "x_bboxes 1 2 3 4 -1 5 ".data).tail ≠ []) ∧
    (lineHandleStart "span".data
        [("class".data, "ocr_cinfo".data),
         ("title".data, "x_bboxes 1 2 3 4 -1 5 ".data)] initL
      = .ok { initL with
          char_positions :=
            some (((pySplitCh ' ' "x_bboxes 1 2 3 4 -1 5 ".data).tail).filter
              (fun x => x ≠ "-1".data)) }) ∧
    ((((pySplitCh ' ' "x_bboxes 1 2 3 4 -1 5 ".data).tail).filter
        (fun x => x ≠ "-1".data)).getLast? = some []) ∧
    strToInt [] = none :=
  ⟨by decide,
   (c10_positions_list_keeps_trailing_empty initL "x_bboxes 1 2 3 4 -1 5 ".data
      (by decide)).1,
   (c10_positions_list_keeps_trailing_empty initL "x_bboxes 1 2 3 4 -1 5 ".data
      (by decide)).2.1 "x_bboxes 1 2 3 4 -1 5".data (by decide),
   rfl⟩

theorem exceptBind_ok {ε α β : Type} (a : α) (f : α → Except ε β) :
    (Except.ok a >>= f) = f a := rfl

theorem exceptBind_error {ε α β : Type} (e : ε) (f : α → Except ε β) :
    ((Except.error e : Except ε α) >>= f) = Except.error e := rfl

theorem trimLastEmpty_of_last_empty (l : List Box) (b : Box)
    (hlast : l.getLast? = some b) (hempty : b.content = []) :
    trimLastEmpty l = l.dropLast := by
  rw [trimLastEmpty, hlast]
  simp [hempty]

theorem ne_nil_of_getLast?_eq_some (l : List Box) (b : Box)
    (hlast : l.getLast? = some b) : l ≠ [] := by
  intro h
  subst h
  simp at hlast

theorem processWord_shape (w : PyStr) (cps : List PyStr) (pr : Box × List PyStr)
    (h : processWord w cps = .ok pr) :
    pr.1.content = w ∧ pr.1.confidence = 0 ∧ pr.2 = cps.drop (4 * w.length) := by
  rw [processWord] at h
  rcases h1 : intsAt (cps.take (4 * w.length)) (pyRange4 0 w.length) with e | lefts <;>
    rw [h1] at h
  · simp [exceptBind_error] at h
  rcases h2 : pyMin lefts with e | left <;> rw [exceptBind_ok, h2] at h
  · simp [exceptBind_error] at h
  rcases h3 : intsAt (cps.take (4 * w.length)) (pyRange4 1 w.length) with e | tops <;>
    rw [exceptBind_ok, h3] at h
  · simp [exceptBind_error] at h
  rcases h4 : pyMin tops with e | top <;> rw [exceptBind_ok, h4] at h
  · simp [exceptBind_error] at h
  rcases h5 : intsAt (cps.take (4 * w.length)) (pyRange4 2 w.length) with e | rights <;>
    rw [exceptBind_ok, h5] at h
  · simp [exceptBind_error] at h
  rcases h6 : pyMax rights with e | right <;> rw [exceptBind_ok, h6] at h
  · simp [exceptBind_error] at h
  rcases h7 : intsAt (cps.take (4 * w.length)) (pyRange4 3 w.length) with e | bottoms <;>
    rw [exceptBind_ok, h7] at h
  · simp [exceptBind_error] at h
  rcases h8 : pyMax bottoms with e | bottom <;> rw [exceptBind_ok, h8] at h
  · simp [exceptBind_error] at h
  rw [exceptBind_ok] at h
  cases h
  exact ⟨rfl, rfl, rfl⟩

theorem processWords_content (ws : List PyStr) (cps : List PyStr)
    (bs : List Box) (rest : List PyStr)
    (h : processWords ws cps = .ok (bs, rest)) :
    ∀ b ∈ bs, b.content ≠ [] := by
  induction ws generalizing cps bs rest with
  | nil =>
    rw [processWords] at h
    cases h
    simp
  | cons w ws ih =>
    rw [processWords] at h
    split_ifs at h with hw
    · exact ih cps bs rest h
    · rcases h1 : processWord w cps with e | ⟨b0, rest0⟩ <;> rw [h1] at h
      · simp [exceptBind_error] at h
      rw [exceptBind_ok] at h
      dsimp only at h
      rcases h2 : processWords ws rest0 with e | ⟨bs1, rest1⟩ <;> rw [h2] at h
      · simp [exceptBind_error] at h
      rw [exceptBind_ok] at h
      dsimp only at h
      cases h
      intro b hb
      rcases List.mem_cons.mp hb with hb | hb
      · subst hb
        rw [(processWord_shape w cps _ h1).1]
        exact hw
      · exact ih rest0 _ _ h2 b hb

theorem lineHandleStart_boxes (t : PyStr) (a : List (PyStr × PyStr)) (st st' : LState)
    (h : lineHandleStart t a st = .ok st') : st'.boxes = st.boxes := by
  simp only [lineHandleStart] at h
  split at h
  · cases h
    rfl
  · split at h
    · cases h
      rfl
    · split at h
      · split at h
        · cases h
        · split at h
          · cases h
          · cases h
            rfl
      · cases h
        rfl

theorem lineHandleData_boxes (d : PyStr) (st st' : LState)
    (h : lineHandleData d st = .ok st') : st'.boxes = st.boxes := by
  simp only [lineHandleData] at h
  split at h
  · cases h
    rfl
  · cases h
    rfl

theorem lineHandleEnd_content (t : PyStr) (st st' : LState)
    (h : lineHandleEnd t st = .ok st')
    (hinv : ∀ b ∈ st.boxes, b.content ≠ []) : ∀ b ∈ st'.boxes, b.content ≠ [] := by
  simp only [lineHandleEnd] at h
  split at h
  · cases h
    exact hinv
  · rename_i txt htxt
    split at h
    · cases h
      exact hinv
    · split at h
      · cases h
      · rename_i l hl
        rcases hp : processWords (pySplitCh ' ' txt) l with e | ⟨bs, rest⟩ <;>
          rw [hp] at h
        · rw [exceptBind_error] at h
          cases h
        · rw [exceptBind_ok] at h
          dsimp only at h
          cases h
          intro b hb
          rcases List.mem_append.mp hb with hb | hb
          · exact hinv b hb
          · exact processWords_content _ _ _ _ hp b hb

theorem feedL_content (doc : List HtmlEvent) (st st' : LState)
    (h : feedL doc st = .ok st') (hinv : ∀ b ∈ st.boxes, b.content ≠ []) :
    ∀ b ∈ st'.boxes, b.content ≠ [] := by
  induction doc generalizing st with
  | nil =>
    rw [feedL] at h
    cases h
    exact hinv
  | cons e rest ih =>
    simp only [feedL] at h
    cases e with
    | startTag t a =>
      dsimp only at h
      rcases h1 : lineHandleStart t a st with er | st1 <;> rw [h1] at h
      · rw [exceptBind_error] at h
        cases h
      · rw [exceptBind_ok] at h
        exact ih st1 h (by
          intro b hb
          exact hinv b ((lineHandleStart_boxes t a st st1 h1) ▸ hb))
    | dataEv d =>
      dsimp only at h
      rcases h1 : lineHandleData d st with er | st1 <;> rw [h1] at h
      · rw [exceptBind_error] at h
        cases h
      · rw [exceptBind_ok] at h
        exact ih st1 h (by
          intro b hb
          exact hinv b ((lineHandleData_boxes d st st1 h1) ▸ hb))
    | endTag t =>
      dsimp only at h
      rcases h1 : lineHandleEnd t st with er | st1 <;> rw [h1] at h
      · rw [exceptBind_error] at h
        cases h
      · rw [exceptBind_ok] at h
        exact ih st1 h (lineHandleEnd_content t st st1 h1 hinv)

/-- A dialect-A document whose only word box has empty content: one
`ocr_line` span containing one empty `ocrx_word` span. -/
def c5Doc : List HtmlEvent :=
  [HtmlEvent.startTag "span".data
     [("class".data, "ocr_line".data), ("title".data, "bbox 0 0 10 10".data)],
   HtmlEvent.startTag "span".data
     [("class".data, "ocrx_word".data), ("title".data, "bbox 1 1 2 2; x_wconf 5".data)],
   HtmlEvent.endTag "span".data,
   HtmlEvent.endTag "span".data]

/-- The word-parser state after feeding `c5Doc`. -/
def c5WState : WState :=
  { tag_types := [],
    current_box_position := some ((1, 1), (2, 2)),
    current_box_text := none,
    current_box_confidence := some 5,
    boxes := [Box.mk [] ((1, 1), (2, 2)) 5],
    current_line_position := some ((0, 0), (10, 10)),
    current_line_content := [],
    lines := [LineBox.mk [Box.mk [] ((1, 1), (2, 2)) 5] ((0, 0), (10, 10))] }

/-- C5 (counterexample): on `c5Doc` the selected parser's box list ends with
an empty-content box, and `WordBoxBuilder.read_file` drops it, but
`LineBoxBuilder.read_file` still returns the line that contains that empty
box (it pops `parser.boxes`, while the returned collection is
`parser.lines`): the trailing empty-content element is not dropped from the
returned collection. -/
theorem c5_counterexample :
    readFileWordBox c5Doc = .ok []
    ∧ readFileLineBox c5Doc
        = .ok [LineBox.mk [Box.mk [] ((1, 1), (2, 2)) 5] ((0, 0), (10, 10))]
    ∧ (LineBox.mk [Box.mk [] ((1, 1), (2, 2)) 5] ((0, 0), (10, 10))).content = []
    ∧ readFileLineBox c5Doc ≠ .ok []
    ∧ readFileLineBox c5Doc ≠ .ok [LineBox.mk [] ((0, 0), (10, 10))] := by
  refine ⟨by decide, by decide, by decide, ?_, ?_⟩ <;> decide

/-- C5 (amended): `WordBoxBuilder.read_file` does drop the trailing
empty-content box from the selected parser's box list, and
`LineBoxBuilder.read_file` applies the same pop to the parser's flat box
list; but on the dialect-A path the collection `LineBoxBuilder.read_file`
returns is the parser's `lines`, unaffected by that pop.  On the dialect-B
path the trim is vacuous: the line parser never produces an empty-content
box, because empty words are skipped. -/
theorem c5_amended :
    (∀ (doc : List HtmlEvent) (st : WState) (lastB : Box),
        feedW doc initW = .ok st →
        st.boxes.getLast? = some lastB →
        lastB.content = [] →
        readFileWordBox doc = .ok st.boxes.dropLast
          ∧ readFileLineBox doc = .ok st.lines)
    ∧ (∀ (doc : List HtmlEvent) (stl : LState),
        feedL doc initL = .ok stl → ∀ b ∈ stl.boxes, b.content ≠ []) := by
  constructor
  · intro doc st lastB hfeed hlast hempty
    have hne : st.boxes ≠ [] := ne_nil_of_getLast?_eq_some st.boxes lastB hlast
    constructor
    · rw [readFileWordBox, hfeed, exceptBind_ok]
      rw [if_pos hne, trimLastEmpty_of_last_empty st.boxes lastB hlast hempty]
    · rw [readFileLineBox, hfeed, exceptBind_ok]
      rw [if_pos hne]
  · intro doc stl hfeed
    exact feedL_content doc initL stl hfeed (by intro b hb; simp [initL] at hb)

/-- Witness for C5 (amended) at `c5Doc` and the empty document. -/
theorem c5_witness :
    feedW c5Doc initW = .ok c5WState
    ∧ c5WState.boxes.getLast? = some (Box.mk [] ((1, 1), (2, 2)) 5)
    ∧ (Box.mk [] ((1, 1), (2, 2)) 5).content = []
    ∧ (readFileWordBox c5Doc = .ok c5WState.boxes.dropLast
       ∧ readFileLineBox c5Doc = .ok c5WState.lines)
    ∧ feedL c5Doc initL = .ok (LState.mk [] (some []) (some []))
    ∧ (∀ b ∈ (LState.mk [] (some []) (some [])).boxes, b.content ≠ []) :=
  ⟨by decide, by decide, rfl,
   c5_amended.1 c5Doc c5WState (Box.mk [] ((1, 1), (2, 2)) 5) (by decide)
     (by decide) rfl,
   by decide,
   c5_amended.2 c5Doc (LState.mk [] (some []) (some [])) (by decide)⟩

/-- Python `min([x, ...xs])` as a fold. -/
def intMin (x : Int) (xs : List Int) : Int := xs.foldl min x

/-- Python `max([x, ...xs])` as a fold. -/
def intMax (x : Int) (xs : List Int) : Int := xs.foldl max x

/-- Written out from the spec of dialect B: consume one coordinate quadruple
`(x1, y1, x2, y2)` per character of the word, in strict left-to-right source
order, failing when the tokens run out or a token is not an integer. -/
def specQuads (w : PyStr) (toks : List PyStr) :
    Option (List (Int × Int × Int × Int) × List PyStr) :=
  match w with
  | [] => some ([], toks)
  | _ :: w' =>
    match toks with
    | a :: b :: c :: d :: rest =>
      match strToInt a, strToInt b, strToInt c, strToInt d with
      | some x1, some y1, some x2, some y2 =>
        match specQuads w' rest with
        | some (qs, rest') => some ((x1, y1, x2, y2) :: qs, rest')
        | none => none
      | _, _, _, _ => none
    | _ => none

/-- Written out from the spec: the word's bounding box aggregates
`left = min(x1 over chars)`, `top = min(y1)`, `right = max(x2)`,
`bottom = max(y2)`, with confidence left at the default `0`. -/
def specWordBox (w : PyStr) (q : Int × Int × Int × Int)
    (qs : List (Int × Int × Int × Int)) : Box :=
  { content := w,
    position := ((intMin q.1 (qs.map (fun r => r.1)),
                  intMin q.2.1 (qs.map (fun r => r.2.1))),
                 (intMax q.2.2.1 (qs.map (fun r => r.2.2.1)),
                  intMax q.2.2.2 (qs.map (fun r => r.2.2.2)))),
    confidence := 0 }

/-- Written out from the spec: split the line text on single spaces, skip
empty words, and emit one aggregated `Box` per word, threading the remaining
coordinate tokens. -/
def specLineParse : List PyStr → List PyStr → Option (List Box × List PyStr)
  | [], toks => some ([], toks)
  | w :: ws, toks =>
    if w = [] then specLineParse ws toks
    else
      match specQuads w toks with
      | none => none
      | some ([], _) => none
      | some (q :: qs, rest0) =>
        match specLineParse ws rest0 with
        | none => none
        | some (bs, rest) => some (specWordBox w q qs :: bs, rest)

theorem pyRange4_succ (off n : Nat) :
    pyRange4 off (n + 1) = off :: (pyRange4 off n).map (fun x => x + 4) := by
  simp only [pyRange4, List.range_succ_eq_map, List.map_cons, List.map_map]
  have h1 : 4 * 0 + off = off := by omega
  rw [h1]
  congr 1
  apply List.map_congr_left
  intro i _
  simp only [Function.comp]
  omega

theorem intsAt_shift4 (a b c d : PyStr) (rest : List PyStr) (idxs : List Nat) :
    intsAt (a :: b :: c :: d :: rest) (idxs.map (fun x => x + 4))
      = intsAt rest idxs := by
  induction idxs with
  | nil => rfl
  | cons i idxs ih =>
    simp only [List.map_cons, intsAt]
    have hget : (a :: b :: c :: d :: rest).get? (i + 4) = rest.get? i := rfl
    rw [hget, ih]

theorem specQuads_intsAt (w : PyStr) (toks : List PyStr)
    (quads : List (Int × Int × Int × Int)) (rest0 : List PyStr)
    (h : specQuads w toks = some (quads, rest0)) :
    rest0 = toks.drop (4 * w.length) ∧ quads.length = w.length ∧
    intsAt (toks.take (4 * w.length)) (pyRange4 0 w.length)
      = .ok (quads.map (fun r => r.1)) ∧
    intsAt (toks.take (4 * w.length)) (pyRange4 1 w.length)
      = .ok (quads.map (fun r => r.2.1)) ∧
    intsAt (toks.take (4 * w.length)) (pyRange4 2 w.length)
      = .ok (quads.map (fun r => r.2.2.1)) ∧
    intsAt (toks.take (4 * w.length)) (pyRange4 3 w.length)
      = .ok (quads.map (fun r => r.2.2.2)) := by
  induction w generalizing toks quads rest0 with
  | nil =>
    rw [specQuads] at h
    cases h
    simp [pyRange4, intsAt]
  | cons ch w' ih =>
    rcases toks with _ | ⟨a, toks⟩
    · simp [specQuads] at h
    rcases toks with _ | ⟨b, toks⟩
    · simp [specQuads] at h
    rcases toks with _ | ⟨c, toks⟩
    · simp [specQuads] at h
    rcases toks with _ | ⟨d, rest⟩
    · simp [specQuads] at h
    simp only [specQuads] at h
    rcases ha : strToInt a with _ | x1 <;> rw [ha] at h
    · simp at h
    rcases hb : strToInt b with _ | y1 <;> rw [hb] at h
    · simp at h
    rcases hc : strToInt c with _ | x2 <;> rw [hc] at h
    · simp at h
    rcases hd : strToInt d with _ | y2 <;> rw [hd] at h
    · simp at h
    rcases hq : specQuads w' rest with _ | ⟨qs', rest'⟩ <;> rw [hq] at h
    · simp at h
    dsimp only at h
    cases h
    obtain ⟨hr, hl, h0, h1, h2, h3⟩ := ih rest qs' _ hq
    have hlc : (ch :: w').length = w'.length + 1 := rfl
    have htake : List.take (4 * (w'.length + 1)) (a :: b :: c :: d :: rest)
        = a :: b :: c :: d :: List.take (4 * w'.length) rest := rfl
    have hdrop : List.drop (4 * (w'.length + 1)) (a :: b :: c :: d :: rest)
        = List.drop (4 * w'.length) rest := rfl
    refine ⟨?_, ?_, ?_, ?_, ?_, ?_⟩
    · rw [hlc, hdrop]
      exact hr
    · simp [hl]
    · rw [hlc, htake, pyRange4_succ, intsAt,
        show (a :: b :: c :: d :: List.take (4 * w'.length) rest).get? 0
          = some a from rfl]
      simp only [ha, intsAt_shift4, h0, exceptBind_ok, List.map_cons]
    · rw [hlc, htake, pyRange4_succ, intsAt,
        show (a :: b :: c :: d :: List.take (4 * w'.length) rest).get? 1
          = some b from rfl]
      simp only [hb, intsAt_shift4, h1, exceptBind_ok, List.map_cons]
    · rw [hlc, htake, pyRange4_succ, intsAt,
        show (a :: b :: c :: d :: List.take (4 * w'.length) rest).get? 2
          = some c from rfl]
      simp only [hc, intsAt_shift4, h2, exceptBind_ok, List.map_cons]
    · rw [hlc, htake, pyRange4_succ, intsAt,
        show (a :: b :: c :: d :: List.take (4 * w'.length) rest).get? 3
          = some d from rfl]
      simp only [hd, intsAt_shift4, h3, exceptBind_ok, List.map_cons]

theorem processWord_eq_spec (w : PyStr) (toks : List PyStr)
    (q : Int × Int × Int × Int) (qs : List (Int × Int × Int × Int))
    (rest0 : List PyStr)
    (h : specQuads w toks = some (q :: qs, rest0)) :
    processWord w toks = .ok (specWordBox w q qs, rest0) := by
  obtain ⟨hr, hl, h0, h1, h2, h3⟩ := specQuads_intsAt w toks (q :: qs) rest0 h
  rw [List.map_cons] at h0 h1 h2 h3
  rw [processWord, h0, exceptBind_ok,
    show pyMin (q.1 :: List.map (fun r => r.1) qs)
      = .ok (intMin q.1 (List.map (fun r => r.1) qs)) from rfl, exceptBind_ok,
    h1, exceptBind_ok,
    show pyMin (q.2.1 :: List.map (fun r => r.2.1) qs)
      = .ok (intMin q.2.1 (List.map (fun r => r.2.1) qs)) from rfl, exceptBind_ok,
    h2, exceptBind_ok,
    show pyMax (q.2.2.1 :: List.map (fun r => r.2.2.1) qs)
      = .ok (intMax q.2.2.1 (List.map (fun r => r.2.2.1) qs)) from rfl, exceptBind_ok,
    h3, exceptBind_ok,
    show pyMax (q.2.2.2 :: List.map (fun r => r.2.2.2) qs)
      = .ok (intMax q.2.2.2 (List.map (fun r => r.2.2.2) qs)) from rfl, exceptBind_ok,
    hr]
  rfl

theorem processWords_eq_spec (ws : List PyStr) (toks : List PyStr)
    (out : List Box) (rest : List PyStr)
    (h : specLineParse ws toks = some (out, rest)) :
    processWords ws toks = .ok (out, rest) := by
  induction ws generalizing toks out rest with
  | nil =>
    rw [specLineParse] at h
    cases h
    rw [processWords]
  | cons w ws ih =>
    simp only [specLineParse] at h
    rw [processWords]
    split_ifs at h with hw
    · rw [if_pos hw]
      exact ih toks out rest h
    · rw [if_neg hw]
      rcases hsq : specQuads w toks with _ | ⟨quads, rest0⟩ <;> rw [hsq] at h
      · simp at h
      rcases quads with _ | ⟨q, qs⟩
      · simp at h
      · dsimp only at h
        rcases hsp : specLineParse ws rest0 with _ | ⟨bs, rest1⟩ <;> rw [hsp] at h
        · simp at h
        · dsimp only at h
          cases h
          rw [processWord_eq_spec w toks q qs rest0 hsq, exceptBind_ok]
          dsimp only
          rw [ih rest0 bs _ hsp, exceptBind_ok]

theorem specLineParse_confidence (ws : List PyStr) (toks : List PyStr)
    (out : List Box) (rest : List PyStr)
    (h : specLineParse ws toks = some (out, rest)) :
    ∀ b ∈ out, b.confidence = 0 := by
  induction ws generalizing toks out rest with
  | nil =>
    rw [specLineParse] at h
    cases h
    simp
  | cons w ws ih =>
    simp only [specLineParse] at h
    split_ifs at h with hw
    · exact ih toks out rest h
    · rcases hsq : specQuads w toks with _ | ⟨quads, rest0⟩ <;> rw [hsq] at h
      · simp at h
      rcases quads with _ | ⟨q, qs⟩
      · simp at h
      · dsimp only at h
        rcases hsp : specLineParse ws rest0 with _ | ⟨bs, rest1⟩ <;> rw [hsp] at h
        · simp at h
        · dsimp only at h
          cases h
          intro b hb
          rcases List.mem_cons.mp hb with hb | hb
          · subst hb
            rfl
          · exact ih rest0 bs _ hsp b hb

/-- C7: for a dialect-B line whose text splits into words each covered by
enough integer coordinate quadruples (the success of `specLineParse`), the
end handler emits one `Box` per non-empty word whose bounding box is the
per-word min/max aggregation over that word's quadruples, consumed in strict
left-to-right order, each with the default confidence `0`. -/
theorem c7_dialectB_word_aggregation :
    ∀ (st : LState) (tag txt : PyStr) (toks : List PyStr)
      (out : List Box) (rest : List PyStr),
      st.line_text = some txt → st.char_positions = some toks → toks ≠ [] →
      specLineParse (pySplitCh ' ' txt) toks = some (out, rest) →
      lineHandleEnd tag st
          = .ok { st with boxes := st.boxes ++ out, line_text := none,
                          char_positions := some rest }
      ∧ ∀ b ∈ out, b.confidence = 0 := by
  intro st tag txt toks out rest htxt hcp htoks hspec
  constructor
  · simp only [lineHandleEnd, htxt, hcp]
    rw [if_neg (by simp [htoks] : ¬ (some toks = some ([] : List PyStr))),
      processWords_eq_spec _ _ _ _ hspec, exceptBind_ok]
  · exact specLineParse_confidence _ _ _ _ hspec

/-- The spec's dialect-B example: line text `"Hi x"`, one quadruple per
non-space character (the space's `-1` quadruple already removed). -/
def c7Toks : List PyStr :=
  ["0".data, "1".data, "10".data, "11".data, "12".data, "2".data, "20".data,
   "12".data, "30".data, "3".data, "40".data, "13".data]

/-- The two boxes the spec's `"Hi x"` example must produce. -/
def c7Out : List Box :=
  [Box.mk "Hi".data ((0, 1), (20, 12)) 0, Box.mk "x".data ((30, 3), (40, 13)) 0]

/-- Witness for C7 on the spec's `"Hi x"` example. -/
theorem c7_witness :
    (LState.mk [] (some "Hi x".data) (some c7Toks)).line_text = some "Hi x".data
    ∧ (LState.mk [] (some "Hi x".data) (some c7Toks)).char_positions = some c7Toks
    ∧ c7Toks ≠ []
    ∧ specLineParse (pySplitCh ' ' "Hi x".data) c7Toks = some (c7Out, [])
    ∧ (lineHandleEnd "span".data (LState.mk [] (some "Hi x".data) (some c7Toks))
        = .ok { LState.mk [] (some "Hi x".data) (some c7Toks) with
                boxes := (LState.mk [] (some "Hi x".data) (some c7Toks)).boxes ++ c7Out,
                line_text := none, char_positions := some [] }
       ∧ ∀ b ∈ c7Out, b.confidence = 0) :=
  ⟨rfl, rfl, by decide, by decide,
   c7_dialectB_word_aggregation (LState.mk [] (some "Hi x".data) (some c7Toks))
     "span".data "Hi x".data c7Toks c7Out [] rfl rfl (by decide) (by decide)⟩

theorem intsAt_ok_bounds (ps : List PyStr) (idxs : List Nat) (vs : List Int)
    (h : intsAt ps idxs = .ok vs) : ∀ i ∈ idxs, i < ps.length := by
  induction idxs generalizing vs with
  | nil => simp
  | cons i idxs ih =>
    rw [intsAt] at h
    rcases hg : ps.get? i with _ | s <;> rw [hg] at h
    · simp at h
    dsimp only at h
    rcases hs : strToInt s with _ | v <;> rw [hs] at h
    · simp at h
    · dsimp only at h
      intro j hj
      rcases List.mem_cons.mp hj with hj | hj
      · subst hj
        by_contra hcon
        rw [List.get?_eq_none.mpr (Nat.le_of_not_lt hcon)] at hg
        simp at hg
      · rcases hrec : intsAt ps idxs with e | vs' <;> rw [hrec] at h
        · simp [exceptBind_error] at h
        · exact ih vs' hrec j hj

theorem processWord_ok_bottoms (w : PyStr) (cps : List PyStr) (pr : Box × List PyStr)
    (h : processWord w cps = .ok pr) :
    ∃ bottoms, intsAt (cps.take (4 * w.length)) (pyRange4 3 w.length)
      = .ok bottoms := by
  rw [processWord] at h
  rcases h1 : intsAt (cps.take (4 * w.length)) (pyRange4 0 w.length) with e | lefts <;>
    rw [h1] at h
  · simp [exceptBind_error] at h
  rcases h2 : pyMin lefts with e | left <;> rw [exceptBind_ok, h2] at h
  · simp [exceptBind_error] at h
  rcases h3 : intsAt (cps.take (4 * w.length)) (pyRange4 1 w.length) with e | tops <;>
    rw [exceptBind_ok, h3] at h
  · simp [exceptBind_error] at h
  rcases h4 : pyMin tops with e | top <;> rw [exceptBind_ok, h4] at h
  · simp [exceptBind_error] at h
  rcases h5 : intsAt (cps.take (4 * w.length)) (pyRange4 2 w.length) with e | rights <;>
    rw [exceptBind_ok, h5] at h
  · simp [exceptBind_error] at h
  rcases h6 : pyMax rights with e | right <;> rw [exceptBind_ok, h6] at h
  · simp [exceptBind_error] at h
  rcases h7 : intsAt (cps.take (4 * w.length)) (pyRange4 3 w.length) with e | bottoms <;>
    rw [exceptBind_ok, h7] at h
  · simp [exceptBind_error] at h
  exact ⟨bottoms, rfl⟩

theorem processWord_insufficient (w : PyStr) (toks : List PyStr)
    (hw : w ≠ []) (hlen : toks.length < 4 * w.length) :
    ∃ e, processWord w toks = .error e := by
  rcases h : processWord w toks with e | pr
  · exact ⟨e, rfl⟩
  · exfalso
    obtain ⟨bottoms, hb⟩ := processWord_ok_bottoms w toks pr h
    have hL : 1 ≤ w.length := List.length_pos.mpr hw
    have hmem : 4 * (w.length - 1) + 3 ∈ pyRange4 3 w.length := by
      simp only [pyRange4, List.mem_map, List.mem_range]
      exact ⟨w.length - 1, by omega, rfl⟩
    have hbound := intsAt_ok_bounds _ _ _ hb _ hmem
    rw [List.length_take] at hbound
    have hmin : min (4 * w.length) toks.length ≤ toks.length := min_le_right _ _
    omega

theorem processWords_insufficient (ws : List PyStr) (toks : List PyStr)
    (h : 4 * (ws.map List.length).sum > toks.length) :
    ∃ e, processWords ws toks = .error e := by
  induction ws generalizing toks with
  | nil => simp at h
  | cons w ws ih =>
    rw [processWords]
    split_ifs with hw
    · simp only [List.map_cons, List.sum_cons, hw] at h
      simp only [List.length_nil, Nat.zero_add] at h
      exact ih toks h
    · by_cases hcase : toks.length < 4 * w.length
      · obtain ⟨e, he⟩ := processWord_insufficient w toks hw hcase
        refine ⟨e, ?_⟩
        rw [he, exceptBind_error]
      · push_neg at hcase
        rcases hpw : processWord w toks with e | ⟨b, rest⟩
        · exact ⟨e, by rw [exceptBind_error]⟩
        · have hrest : rest = toks.drop (4 * w.length) :=
            (processWord_shape w toks _ hpw).2.2
          have hlen2 : 4 * (ws.map List.length).sum > rest.length := by
            rw [hrest, List.length_drop]
            simp only [List.map_cons, List.sum_cons] at h
            omega
          obtain ⟨e, he⟩ := ih rest hlen2
          refine ⟨e, ?_⟩
          rw [exceptBind_ok]
          dsimp only
          rw [he, exceptBind_error]

theorem splitCh_sum_lengths (sep : Char) (s : PyStr) :
    ((pySplitCh sep s).map List.length).sum
      = (s.filter (fun c => c ≠ sep)).length := by
  induction s with
  | nil => simp [pySplitCh]
  | cons c s ih =>
    simp only [pySplitCh]
    split_ifs with hc
    · subst hc
      simp only [List.map_cons, List.sum_cons, List.length_nil, Nat.zero_add, ih]
      simp [List.filter_cons]
    · rcases hsp : pySplitCh sep s with _ | ⟨p, ps⟩
      · exact absurd hsp (pySplitCh_ne_nil sep s)
      · rw [hsp] at ih
        simp only [List.map_cons, List.sum_cons, List.length_cons] at ih ⊢
        simp only [List.filter_cons, decide_not] at ih ⊢
        rw [if_pos (by simp [hc])]
        simp only [List.length_cons]
        omega

/-- A dialect-B document whose line text `"ab"` has two non-space characters
but whose positions list holds only `-1` sentinels, leaving zero coordinate
quadruples after removal. -/
def c8Doc : List HtmlEvent :=
  [HtmlEvent.startTag "span".data
     [("class".data, "ocr_line".data), ("title".data, "bbox 0 0 5 5".data)],
   HtmlEvent.dataEv "ab".data,
   HtmlEvent.endTag "span".data,
   HtmlEvent.startTag "span".data
     [("class".data, "ocr_cinfo".data), ("title".data, "x_bboxes -1 -1 -1 -1".data)],
   HtmlEvent.endTag "span".data]

/-- C8 (counterexample): on `c8Doc` the line has more non-space characters
(two) than available coordinate quadruples (zero), yet the dialect-B parse
finishes without error — the guard treats the empty positions list as "not
ready" and skips the line — and `read_file` returns an empty collection
rather than raising. -/
theorem c8_counterexample :
    feedL c8Doc initL = .ok (LState.mk [] (some "ab".data) (some []))
    ∧ readFileWordBox c8Doc = .ok []
    ∧ 4 * ("ab".data.filter (fun c => c ≠ ' ')).length
        > (([] : List PyStr)).length := by
  refine ⟨by decide, by decide, by decide⟩

/-- C8 (amended): when the coordinate token list is non-empty and the line
text has more non-space characters than available coordinate quadruples, the
dialect-B end handler raises, and the feed propagates that error, so no
partial result reaches the caller.  (With an empty token list the guard
returns silently instead — see the counterexample.) -/
theorem c8_coordinate_exhaustion_fatal :
    ∀ (st : LState) (tag txt : PyStr) (toks : List PyStr),
      st.line_text = some txt → st.char_positions = some toks → toks ≠ [] →
      4 * ((txt.filter (fun c => c ≠ ' ')).length) > toks.length →
      ∃ e, lineHandleEnd tag st = .error e
        ∧ ∀ rest : List HtmlEvent,
            feedL (HtmlEvent.endTag tag :: rest) st = .error e := by
  intro st tag txt toks htxt hcp htoks hcount
  have hsum : 4 * ((pySplitCh ' ' txt).map List.length).sum > toks.length := by
    rw [splitCh_sum_lengths]
    exact hcount
  obtain ⟨e, he⟩ := processWords_insufficient (pySplitCh ' ' txt) toks hsum
  have hend : lineHandleEnd tag st = .error e := by
    simp only [lineHandleEnd, htxt, hcp]
    rw [if_neg (by simp [htoks] : ¬ (some toks = some ([] : List PyStr))),
      he, exceptBind_error]
  refine ⟨e, hend, ?_⟩
  intro rest
  simp only [feedL]
  rw [hend, exceptBind_error]

/-- Witness for C8 (amended): line text `"ab"`, a single leftover token. -/
theorem c8_witness :
    (LState.mk [] (some "ab".data) (some ["1".data])).line_text = some "ab".data
    ∧ (LState.mk [] (some "ab".data) (some ["1".data])).char_positions
        = some ["1".data]
    ∧ (["1".data] : List PyStr) ≠ []
    ∧ 4 * ("ab".data.filter (fun c => c ≠ ' ')).length
        > (["1".data] : List PyStr).length
    ∧ ∃ e, lineHandleEnd "span".data (LState.mk [] (some "ab".data) (some ["1".data]))
          = .error e
        ∧ ∀ rest : List HtmlEvent,
            feedL (HtmlEvent.endTag "span".data :: rest)
              (LState.mk [] (some "ab".data) (some ["1".data])) = .error e :=
  ⟨rfl, rfl, by decide, by decide,
   c8_coordinate_exhaustion_fatal (LState.mk [] (some "ab".data) (some ["1".data]))
     "span".data "ab".data ["1".data] rfl rfl (by decide) (by decide)⟩

theorem digitChar_props (d : Nat) (h : d < 10) :
    pyIsSpace (digitChar d) = false ∧ digitChar d ≠ ';' ∧ digitChar d ≠ ' '
      ∧ digitChar d ≠ '-' ∧ digitChar d ≠ '+' ∧ (digitChar d).isDigit = true
      ∧ (digitChar d).toNat = 48 + d := by
  interval_cases d <;> exact ⟨rfl, by decide, by decide, by decide, by decide, rfl, rfl⟩

theorem natDigits_all_digits (n : Nat) :
    ∀ c ∈ natDigits n, ∃ d, d < 10 ∧ c = digitChar d := by
  induction n using Nat.strong_induction_on with
  | _ n ih =>
    rw [natDigits]
    split_ifs with h
    · intro c hc
      simp only [List.mem_singleton] at hc
      exact ⟨n, h, hc⟩
    · intro c hc
      rcases List.mem_append.mp hc with hc | hc
      · exact ih (n / 10) (by omega) c hc
      · simp only [List.mem_singleton] at hc
        exact ⟨n % 10, by omega, hc⟩

theorem natDigits_ne_nil (n : Nat) : natDigits n ≠ [] := by
  rw [natDigits]
  split_ifs <;> simp

theorem digitsVal_append (l : PyStr) (c : Char) :
    digitsVal (l ++ [c]) = 10 * digitsVal l + (c.toNat - 48) := by
  simp [digitsVal, List.foldl_append]

theorem digitsVal_natDigits (n : Nat) : digitsVal (natDigits n) = n := by
  induction n using Nat.strong_induction_on with
  | _ n ih =>
    rw [natDigits]
    split_ifs with h
    · simp only [digitsVal, List.foldl_cons, List.foldl_nil]
      rw [(digitChar_props n h).2.2.2.2.2.2]
      omega
    · rw [digitsVal_append, ih (n / 10) (by omega),
        (digitChar_props (n % 10) (by omega)).2.2.2.2.2.2]
      omega

theorem parseDigits_natDigits (n : Nat) : parseDigits (natDigits n) = some n := by
  rw [parseDigits, if_pos, digitsVal_natDigits]
  refine ⟨natDigits_ne_nil n, ?_⟩
  rw [List.all_eq_true]
  intro c hc
  obtain ⟨d, hd, hcd⟩ := natDigits_all_digits n c hc
  subst hcd
  exact (digitChar_props d hd).2.2.2.2.2.1

theorem intRepr_chars (n : Int) :
    ∀ ch ∈ intRepr n, ch = '-' ∨ ∃ d, d < 10 ∧ ch = digitChar d := by
  intro ch hch
  rw [intRepr] at hch
  split_ifs at hch with h
  · rcases List.mem_cons.mp hch with hch | hch
    · exact Or.inl hch
    · exact Or.inr (natDigits_all_digits _ ch hch)
  · exact Or.inr (natDigits_all_digits _ ch hch)

theorem intRepr_ch_facts (n : Int) :
    ∀ ch ∈ intRepr n, pyIsSpace ch = false ∧ ch ≠ ';' ∧ ch ≠ ' ' := by
  intro ch hch
  rcases intRepr_chars n ch hch with h | ⟨d, hd, h⟩ <;> subst h
  · exact ⟨rfl, by decide, by decide⟩
  · obtain ⟨h1, h2, h3, _⟩ := digitChar_props d hd
    exact ⟨h1, h2, h3⟩

theorem intRepr_ne_nil (n : Int) : intRepr n ≠ [] := by
  rw [intRepr]
  split_ifs
  · simp
  · exact natDigits_ne_nil _

theorem pyLStrip_eq_self (s : PyStr)
    (h : ∀ c, s.head? = some c → pyIsSpace c = false) : pyLStrip s = s := by
  cases s with
  | nil => rfl
  | cons c t =>
    rw [pyLStrip, List.dropWhile_cons, if_neg]
    simp [h c rfl]

theorem pyRStrip_eq_self (s : PyStr)
    (h : ∀ c, s.getLast? = some c → pyIsSpace c = false) : pyRStrip s = s := by
  rw [pyRStrip]
  cases hs : s.reverse with
  | nil =>
    rw [List.reverse_eq_nil_iff.mp hs]
    rfl
  | cons c t =>
    have hc : s.getLast? = some c := by
      rw [← List.head?_reverse, hs]
      rfl
    rw [List.dropWhile_cons, if_neg (by simp [h c hc]), ← hs, List.reverse_reverse]

theorem pyStrip_eq_self (s : PyStr)
    (hh : ∀ c, s.head? = some c → pyIsSpace c = false)
    (hl : ∀ c, s.getLast? = some c → pyIsSpace c = false) : pyStrip s = s := by
  rw [pyStrip, pyRStrip_eq_self s hl, pyLStrip_eq_self s hh]

theorem mem_of_getLast?_eq {α : Type} (l : List α) (c : α)
    (h : l.getLast? = some c) : c ∈ l := by
  have hm : c ∈ l.getLast? := by
    rw [h]
    rfl
  obtain ⟨hne, hc⟩ := List.mem_getLast?_eq_getLast hm
  rw [hc]
  exact List.getLast_mem hne

theorem strToInt_intRepr (n : Int) : strToInt (intRepr n) = some n := by
  have hstrip : pyStrip (intRepr n) = intRepr n := by
    refine pyStrip_eq_self _ ?_ ?_
    · intro c hc
      exact (intRepr_ch_facts n c (List.mem_of_mem_head? (by rw [hc]; rfl))).1
    · intro c hc
      exact (intRepr_ch_facts n c (mem_of_getLast?_eq _ c hc)).1
  rw [strToInt, hstrip, intRepr]
  split_ifs with h
  · show Option.map (fun k => -(k : Int)) (parseDigits (natDigits (-n).toNat)) = some n
    rw [parseDigits_natDigits]
    refine congrArg some ?_
    show -(((-n).toNat : Nat) : Int) = n
    omega
  · rcases hnd : natDigits n.toNat with _ | ⟨c, cs⟩
    · exact absurd hnd (natDigits_ne_nil _)
    · obtain ⟨d, hd, hcd⟩ := natDigits_all_digits n.toNat c (by rw [hnd]; simp)
      obtain ⟨_, _, _, hdm, hdp, _, _⟩ := digitChar_props d hd
      subst hcd
      dsimp only
      rw [if_neg hdm, if_neg hdp, ← hnd, parseDigits_natDigits]
      refine congrArg some ?_
      show ((n.toNat : Nat) : Int) = n
      omega

theorem pySplitCh_eq_single (sep : Char) (B : PyStr)
    (hB : ∀ c ∈ B, c ≠ sep) : pySplitCh sep B = [B] := by
  induction B with
  | nil => rfl
  | cons b B ih =>
    simp only [pySplitCh]
    rw [if_neg (hB b (by simp)), ih (fun c hc => hB c (by simp [hc]))]

theorem pySplitCh_append_sep_of_not_mem (sep : Char) (A B : PyStr)
    (hA : ∀ c ∈ A, c ≠ sep) :
    pySplitCh sep (A ++ sep :: B) = A :: pySplitCh sep B := by
  induction A with
  | nil => simp [pySplitCh]
  | cons a A ih =>
    simp only [List.cons_append, pySplitCh, List.append_eq]
    rw [if_neg (hA a (by simp)), ih (fun c hc => hA c (by simp [hc]))]

theorem pySplit2_eq_single (s1 s2 : Char) (B : PyStr)
    (hB : ∀ c ∈ B, c ≠ s1) : pySplit2 s1 s2 B = [B] := by
  induction B with
  | nil => rfl
  | cons b B ih =>
    cases B with
    | nil => rfl
    | cons b2 B2 =>
      simp only [pySplit2]
      rw [if_neg (fun hand => (hB b (by simp)) hand.1),
        ih (fun c hc => hB c (by simp [hc]))]

theorem pySplit2_append_sep_of_not_mem (s1 s2 : Char) (A B : PyStr)
    (hA : ∀ c ∈ A, c ≠ s1) :
    pySplit2 s1 s2 (A ++ s1 :: s2 :: B) = A :: pySplit2 s1 s2 B := by
  induction A with
  | nil => simp [pySplit2]
  | cons a A ih =>
    cases A with
    | nil =>
      rw [show ([a] ++ s1 :: s2 :: B) = a :: s1 :: s2 :: B from rfl, pySplit2,
        if_neg (fun hand => (hA a (by simp)) hand.1),
        (by rw [pySplit2, if_pos ⟨rfl, rfl⟩] :
          pySplit2 s1 s2 (s1 :: s2 :: B) = [] :: pySplit2 s1 s2 B)]
    | cons a2 A2 =>
      rw [show ((a :: a2 :: A2) ++ s1 :: s2 :: B)
          = a :: a2 :: (A2 ++ s1 :: s2 :: B) from rfl, pySplit2,
        if_neg (fun hand => (hA a (by simp)) hand.1)]
      have hih := ih (fun c hc => hA c (by simp [hc]))
      rw [show ((a2 :: A2) ++ s1 :: s2 :: B)
          = a2 :: (A2 ++ s1 :: s2 :: B) from rfl] at hih
      rw [hih]

/-- The `bbox` piece of a serialized title. -/
def bboxPiece (b : Box) : PyStr :=
  "bbox ".data ++ intRepr b.position.1.1 ++ " ".data ++ intRepr b.position.1.2
    ++ " ".data ++ intRepr b.position.2.1 ++ " ".data ++ intRepr b.position.2.2

/-- The `x_wconf` piece of a serialized title. -/
def wconfPiece (b : Box) : PyStr := "x_wconf ".data ++ intRepr b.confidence

theorem titleOfBox_decomp (b : Box) :
    titleOfBox b = bboxPiece b ++ ';' :: ' ' :: wconfPiece b := by
  simp only [titleOfBox, bboxPiece, wconfPiece, List.append_assoc]
  rfl

theorem bboxPiece_no_semicolon (b : Box) : ∀ c ∈ bboxPiece b, c ≠ ';' := by
  intro ch hch
  simp only [bboxPiece, List.mem_append] at hch
  rcases hch with ((((((h | h) | h) | h) | h) | h) | h) | h
  · exact (by decide : ∀ c ∈ "bbox ".data, c ≠ ';') ch h
  · exact (intRepr_ch_facts _ ch h).2.1
  · exact (by decide : ∀ c ∈ " ".data, c ≠ ';') ch h
  · exact (intRepr_ch_facts _ ch h).2.1
  · exact (by decide : ∀ c ∈ " ".data, c ≠ ';') ch h
  · exact (intRepr_ch_facts _ ch h).2.1
  · exact (by decide : ∀ c ∈ " ".data, c ≠ ';') ch h
  · exact (intRepr_ch_facts _ ch h).2.1

theorem wconfPiece_no_semicolon (b : Box) : ∀ c ∈ wconfPiece b, c ≠ ';' := by
  intro ch hch
  simp only [wconfPiece, List.mem_append] at hch
  rcases hch with h | h
  · exact (by decide : ∀ c ∈ "x_wconf ".data, c ≠ ';') ch h
  · exact (intRepr_ch_facts _ ch h).2.1

theorem titleOfBox_pieces (b : Box) :
    pySplit2 ';' ' ' (titleOfBox b) = [bboxPiece b, wconfPiece b] := by
  rw [titleOfBox_decomp,
    pySplit2_append_sep_of_not_mem ';' ' ' _ _ (bboxPiece_no_semicolon b),
    pySplit2_eq_single ';' ' ' _ (wconfPiece_no_semicolon b)]

theorem bboxPiece_strip (b : Box) : pyStrip (bboxPiece b) = bboxPiece b := by
  refine pyStrip_eq_self _ ?_ ?_
  · intro c hc
    have hb : (bboxPiece b).head? = some 'b' := rfl
    rw [hb] at hc
    cases hc
    rfl
  · intro c hc
    rw [bboxPiece, List.getLast?_append_of_ne_nil _ (intRepr_ne_nil _)] at hc
    exact (intRepr_ch_facts _ c (mem_of_getLast?_eq _ c hc)).1

theorem wconfPiece_strip (b : Box) : pyStrip (wconfPiece b) = wconfPiece b := by
  refine pyStrip_eq_self _ ?_ ?_
  · intro c hc
    have hb : (wconfPiece b).head? = some 'x' := rfl
    rw [hb] at hc
    cases hc
    rfl
  · intro c hc
    rw [wconfPiece, List.getLast?_append_of_ne_nil _ (intRepr_ne_nil _)] at hc
    exact (intRepr_ch_facts _ c (mem_of_getLast?_eq _ c hc)).1

theorem bboxPiece_parts (b : Box) :
    pySplitCh ' ' (bboxPiece b)
      = ["bbox".data, intRepr b.position.1.1, intRepr b.position.1.2,
         intRepr b.position.2.1, intRepr b.position.2.2] := by
  have hd : bboxPiece b
      = "bbox".data ++ ' ' :: (intRepr b.position.1.1
          ++ ' ' :: (intRepr b.position.1.2
          ++ ' ' :: (intRepr b.position.2.1 ++ ' ' :: intRepr b.position.2.2))) := by
    simp only [bboxPiece, List.append_assoc]
    rfl
  rw [hd,
    pySplitCh_append_sep_of_not_mem ' ' _ _ (by decide),
    pySplitCh_append_sep_of_not_mem ' ' _ _
      (fun c hc => (intRepr_ch_facts _ c hc).2.2),
    pySplitCh_append_sep_of_not_mem ' ' _ _
      (fun c hc => (intRepr_ch_facts _ c hc).2.2),
    pySplitCh_append_sep_of_not_mem ' ' _ _
      (fun c hc => (intRepr_ch_facts _ c hc).2.2),
    pySplitCh_eq_single ' ' _ (fun c hc => (intRepr_ch_facts _ c hc).2.2)]

theorem wconfPiece_parts (b : Box) :
    pySplitCh ' ' (wconfPiece b) = ["x_wconf".data, intRepr b.confidence] := by
  have hd : wconfPiece b = "x_wconf".data ++ ' ' :: intRepr b.confidence := by
    simp only [wconfPiece]
    rfl
  rw [hd, pySplitCh_append_sep_of_not_mem ' ' _ _ (by decide),
    pySplitCh_eq_single ' ' _ (fun c hc => (intRepr_ch_facts _ c hc).2.2)]

theorem parseConfidence_titleOfBox (b : Box) :
    parseConfidence (titleOfBox b) = some b.confidence := by
  have hpf1 : List.isPrefixOf "x_wconf".data (bboxPiece b) = false := rfl
  have hpf2 : List.isPrefixOf "x_wconf".data (wconfPiece b) = true := rfl
  rw [parseConfidence, titleOfBox_pieces, parseConfidencePieces]
  simp only [bboxPiece_strip, hpf1]
  rw [if_neg (by simp), parseConfidencePieces]
  simp only [wconfPiece_strip, hpf2]
  rw [if_pos trivial, wconfPiece_parts]
  simp only [List.get?_cons_succ, List.get?_cons_zero]
  exact strToInt_intRepr _

theorem parsePosition_titleOfBox (b : Box) :
    parsePosition (titleOfBox b) = some b.position := by
  have hpf1 : List.isPrefixOf "bbox".data (bboxPiece b) = true := rfl
  rw [parsePosition, titleOfBox_pieces, parsePositionPieces]
  simp only [bboxPiece_strip, hpf1]
  rw [if_pos trivial, bboxPiece_parts]
  simp only [List.get?_cons_succ, List.get?_cons_zero, strToInt_intRepr]

theorem feedW_append (l1 l2 : List HtmlEvent) (st : WState) :
    feedW (l1 ++ l2) st = feedW l1 st >>= fun st' => feedW l2 st' := by
  induction l1 generalizing st with
  | nil => rfl
  | cons e l1 ih =>
    simp only [List.cons_append, feedW]
    cases e with
    | startTag t a =>
      dsimp only
      rcases h : wordHandleStart t a st with er | st1
      · simp only [exceptBind_error]
      · simp only [exceptBind_ok]
        exact ih st1
    | dataEv d =>
      dsimp only
      rcases h : wordHandleData d st with er | st1
      · simp only [exceptBind_error]
      · simp only [exceptBind_ok]
        exact ih st1
    | endTag t =>
      dsimp only
      rcases h : wordHandleEnd t st with er | st1
      · simp only [exceptBind_error]
      · simp only [exceptBind_ok]
        exact ih st1

theorem wordHandleStart_other (t : PyStr) (a : List (PyStr × PyStr)) (st : WState)
    (h : t ≠ "span".data) : wordHandleStart t a st = .ok st := by
  simp only [wordHandleStart]
  rw [if_pos h]

theorem wordHandleEnd_other (t : PyStr) (st : WState)
    (h : t ≠ "span".data) : wordHandleEnd t st = .ok st := by
  simp only [wordHandleEnd]
  rw [if_pos h]

theorem wordHandleData_none (d : PyStr) (st : WState)
    (h : st.current_box_text = none) : wordHandleData d st = .ok st := by
  simp only [wordHandleData, h]


theorem wordHandleStart_wordSpan (b : Box) (st : WState) :
    wordHandleStart "span".data
        [("class".data, "ocrx_word".data), ("title".data, titleOfBox b)] st
      = .ok { st with current_box_confidence := some b.confidence,
                      current_box_position := some b.position,
                      current_box_text := some [],
                      tag_types := st.tag_types ++ ["ocrx_word".data] } := by
  simp only [wordHandleStart, List.foldl]
  simp only [ne_eq, List.cons.injEq, Char.isValue, and_true, and_false, if_false,
    if_true, reduceCtorEq]
  simp only [show ('t' = 'c' ∧ 'i' = 'l' ∧ 't' = 'a' ∧ 'l' = 's' ∧ 'e' = 's') = False by
    simp, not_true, if_false, if_true]
  simp only [or_true, if_true]
  rw [parseConfidence_titleOfBox, parsePosition_titleOfBox]

theorem wordHandleEnd_wordSpan (st : WState) (tts : List PyStr) (txt : PyStr)
    (htags : st.tag_types = tts ++ ["ocrx_word".data])
    (htxt : st.current_box_text = some txt) :
    wordHandleEnd "span".data st
      = .ok { st with
          tag_types := tts,
          boxes := st.boxes ++
            [Box.mk txt (st.current_box_position.getD ((0, 0), (0, 0)))
              (st.current_box_confidence.getD 0)],
          current_line_content := st.current_line_content ++
            [Box.mk txt (st.current_box_position.getD ((0, 0), (0, 0)))
              (st.current_box_confidence.getD 0)],
          current_box_text := none } := by
  simp only [wordHandleEnd]
  rw [if_neg (show ¬(("span".data : PyStr) ≠ "span".data) by decide)]
  rw [htags, List.getLast?_concat]
  rw [show (some ("ocrx_word".data) : Option PyStr)
      = some ['o', 'c', 'r', 'x', '_', 'w', 'o', 'r', 'd'] from rfl]
  dsimp only
  rw [if_pos (by decide :
    (['o', 'c', 'r', 'x', '_', 'w', 'o', 'r', 'd'] : PyStr)
        = ['o', 'c', 'r', '_', 'w', 'o', 'r', 'd'] ∨
      (['o', 'c', 'r', 'x', '_', 'w', 'o', 'r', 'd'] : PyStr)
        = ['o', 'c', 'r', 'x', '_', 'w', 'o', 'r', 'd'])]
  rw [htxt]
  dsimp only
  rw [List.dropLast_concat]

theorem feedW_cons_start (t : PyStr) (a : List (PyStr × PyStr))
    (evs : List HtmlEvent) (s s' : WState) (h : wordHandleStart t a s = .ok s') :
    feedW (HtmlEvent.startTag t a :: evs) s = feedW evs s' := by
  simp only [feedW]
  rw [h]
  rfl

theorem feedW_cons_data (d : PyStr) (evs : List HtmlEvent) (s s' : WState)
    (h : wordHandleData d s = .ok s') :
    feedW (HtmlEvent.dataEv d :: evs) s = feedW evs s' := by
  simp only [feedW]
  rw [h]
  rfl

theorem feedW_cons_end (t : PyStr) (evs : List HtmlEvent) (s s' : WState)
    (h : wordHandleEnd t s = .ok s') :
    feedW (HtmlEvent.endTag t :: evs) s = feedW evs s' := by
  simp only [feedW]
  rw [h]
  rfl

theorem feedW_box (b : Box) (evs : List HtmlEvent) (st : WState) :
    feedW (boxParagraphEvents b ++ evs) st
      = feedW evs
          { st with
              boxes := st.boxes ++ [b],
              current_line_content := st.current_line_content ++ [b],
              current_box_position := some b.position,
              current_box_confidence := some b.confidence,
              current_box_text := none } := by
  have hb : Box.mk b.content b.position b.confidence = b := rfl
  by_cases hc : b.content = []
  · rw [show boxParagraphEvents b ++ evs
        = HtmlEvent.startTag "p".data []
          :: HtmlEvent.startTag "span".data
              [("class".data, "ocrx_word".data), ("title".data, titleOfBox b)]
          :: HtmlEvent.endTag "span".data
          :: HtmlEvent.endTag "p".data
          :: HtmlEvent.dataEv "\n".data :: evs from by
      simp [boxParagraphEvents, boxXmlEvents, hc]]
    rw [feedW_cons_start _ _ _ _ _ (wordHandleStart_other _ _ _ (by decide))]
    rw [feedW_cons_start _ _ _ _ _ (wordHandleStart_wordSpan b st)]
    rw [feedW_cons_end _ _ _ _
      (wordHandleEnd_wordSpan _ st.tag_types [] rfl rfl)]
    rw [feedW_cons_end _ _ _ _ (wordHandleEnd_other _ _ (by decide))]
    rw [feedW_cons_data _ _ _ _ (wordHandleData_none _ _ rfl)]
    dsimp only
    simp only [Option.getD_some]
    rw [hc] at hb
    rw [hb]
  · rw [show boxParagraphEvents b ++ evs
        = HtmlEvent.startTag "p".data []
          :: HtmlEvent.startTag "span".data
              [("class".data, "ocrx_word".data), ("title".data, titleOfBox b)]
          :: HtmlEvent.dataEv b.content
          :: HtmlEvent.endTag "span".data
          :: HtmlEvent.endTag "p".data
          :: HtmlEvent.dataEv "\n".data :: evs from by
      simp [boxParagraphEvents, boxXmlEvents, hc]]
    rw [feedW_cons_start _ _ _ _ _ (wordHandleStart_other _ _ _ (by decide))]
    rw [feedW_cons_start _ _ _ _ _ (wordHandleStart_wordSpan b st)]
    rw [feedW_cons_data b.content _
      { st with current_box_confidence := some b.confidence,
                current_box_position := some b.position,
                current_box_text := some [],
                tag_types := st.tag_types ++ ["ocrx_word".data] }
      { st with current_box_confidence := some b.confidence,
                current_box_position := some b.position,
                current_box_text := some b.content,
                tag_types := st.tag_types ++ ["ocrx_word".data] } rfl]
    rw [feedW_cons_end _ _ _ _
      (wordHandleEnd_wordSpan _ st.tag_types b.content rfl rfl)]
    rw [feedW_cons_end _ _ _ _ (wordHandleEnd_other _ _ (by decide))]
    rw [feedW_cons_data _ _ _ _ (wordHandleData_none _ _ rfl)]
    dsimp only
    simp only [Option.getD_some]

theorem feedW_boxes (bs : List Box) (tail : List HtmlEvent) (st : WState)
    (h : st.current_box_text = none) :
    ∃ st', feedW ((bs.map boxParagraphEvents).flatten ++ tail) st = feedW tail st'
      ∧ st'.boxes = st.boxes ++ bs ∧ st'.current_box_text = none := by
  induction bs generalizing st with
  | nil =>
    exact ⟨st, by simp only [List.map_nil, List.flatten_nil, List.nil_append],
      by simp only [List.append_nil], h⟩
  | cons b bs ih =>
    simp only [List.map_cons, List.flatten_cons, List.append_assoc]
    rw [feedW_box]
    obtain ⟨st', heq, hboxes, htext⟩ := ih
      { st with
          boxes := st.boxes ++ [b],
          current_line_content := st.current_line_content ++ [b],
          current_box_position := some b.position,
          current_box_confidence := some b.confidence,
          current_box_text := none } rfl
    refine ⟨st', heq, ?_, htext⟩
    rw [hboxes]
    simp only [List.append_assoc, List.singleton_append]

theorem feedW_closing (st : WState) (h : st.current_box_text = none) :
    feedW closingEvents st = .ok st := by
  simp only [closingEvents]
  rw [feedW_cons_end _ _ _ _ (wordHandleEnd_other _ _ (by decide))]
  rw [feedW_cons_data _ _ _ _ (wordHandleData_none _ _ h)]
  rw [feedW_cons_end _ _ _ _ (wordHandleEnd_other _ _ (by decide))]
  rw [feedW_cons_data _ _ _ _ (wordHandleData_none _ _ h)]
  rfl

theorem feedW_header :
    feedW (xhtmlHeaderEvents
        ++ [HtmlEvent.startTag "body".data [], HtmlEvent.dataEv "\n".data]) initW
      = .ok initW := by
  rfl

theorem boxEq_refl (b : Box) : Box.eq b (some b) = true := by
  simp only [Box.eq, Box.boxCmp, cmpPairs_refl4, decide_eq_true_eq]

/-- C4: serializing any collection of `Box` regions with
`WordBoxBuilder.write_file` and re-parsing the produced dialect-A document
with `WordBoxBuilder.read_file` succeeds and yields a collection equal,
elementwise under the geometric equality `Box.__eq__`, to the original
collection with the trailing-empty-region trim applied. -/
theorem c4_write_read_roundtrip (bs : List Box) :
    ∃ res, readFileWordBox (writeFileEvents bs) = .ok res ∧
      List.Forall₂ (fun a b => Box.eq a (some b) = true) res (trimLastEmpty bs) := by
  have hfeed : ∃ st', feedW (writeFileEvents bs) initW = .ok st'
      ∧ st'.boxes = bs := by
    simp only [writeFileEvents]
    rw [feedW_append, feedW_header, exceptBind_ok]
    obtain ⟨st', heq, hboxes, htext⟩ := feedW_boxes bs closingEvents initW rfl
    rw [heq, feedW_closing st' htext]
    refine ⟨st', rfl, ?_⟩
    rw [hboxes]
    rfl
  obtain ⟨st', heq, hboxes⟩ := hfeed
  refine ⟨trimLastEmpty bs, ?_, ?_⟩
  · cases bs with
    | nil =>
      simp only [readFileWordBox]
      rw [heq, exceptBind_ok, hboxes]
      rfl
    | cons b bs' =>
      simp only [readFileWordBox]
      rw [heq, exceptBind_ok, hboxes]
      rw [if_pos (List.cons_ne_nil b bs')]
  · rw [List.forall₂_same]
    intro x _
    exact boxEq_refl x
